import Mathlib

/-!
# Verification of the ipo-calender scraping pipeline

Shallow embedding of the DART subscription-calendar scraper
(`scripts/update-ipo.js`, `scripts/update-ipo.mjs` and the unnamed pipeline
variants) together with proofs about the claims of its specification.

JavaScript strings are modelled as Lean `String`s; the JS `<` / `>`
comparison on strings (lexicographic over code units) is modelled by
`listLtCh` on the underlying character lists, which agrees with the JS
order for the BMP text handled by this program.  External capabilities
(network fetch, `iconv` decoding, the regex engine of the JS runtime,
`cheerio` DOM access) appear as explicit function parameters; everything
the repository's own code computes is translated directly.
-/

namespace Ipo

/-! ## JS string comparison -/

/-- Lexicographic strict order on character lists, mirroring the JS `<`
comparison of strings (code-unit by code-unit). -/
def listLtCh : List Char → List Char → Bool
  | [], [] => false
  | [], _ :: _ => true
  | _ :: _, [] => false
  | a :: as, b :: bs =>
    if a.toNat < b.toNat then true
    else if b.toNat < a.toNat then false
    else listLtCh as bs

/-- JS `a < b` on strings. -/
def strLt (a b : String) : Bool := listLtCh a.data b.data

/-- JS `a <= b` on strings (`¬ b < a`). -/
def strLe (a b : String) : Bool := !(strLt b a)

theorem char_eq_of_toNat_eq {a b : Char} (h : a.toNat = b.toNat) : a = b :=
  Char.eq_of_val_eq (UInt32.ext h)

theorem str_eq_of_data_eq {a b : String} (h : a.data = b.data) : a = b := by
  have h1 : a.data.asString = b.data.asString := by rw [h]
  calc a = a.toList.asString := (String.asString_toList a).symm
    _ = b.toList.asString := h1
    _ = b := String.asString_toList b

theorem listLtCh_cons (a b : Char) (as bs : List Char) :
    listLtCh (a :: as) (b :: bs) =
      if a.toNat < b.toNat then true
      else if b.toNat < a.toNat then false
      else listLtCh as bs := rfl

theorem listLtCh_trichotomy : ∀ (a b : List Char),
    listLtCh a b = true ∨ a = b ∨ listLtCh b a = true
  | [], [] => Or.inr (Or.inl rfl)
  | [], _ :: _ => Or.inl rfl
  | _ :: _, [] => Or.inr (Or.inr rfl)
  | a :: as, b :: bs => by
    rcases Nat.lt_trichotomy a.toNat b.toNat with h | h | h
    · exact Or.inl (by rw [listLtCh_cons, if_pos h])
    · have hab : a = b := char_eq_of_toNat_eq h
      subst hab
      rcases listLtCh_trichotomy as bs with h2 | h2 | h2
      · exact Or.inl (by rw [listLtCh_cons]; simp [h2])
      · exact Or.inr (Or.inl (by rw [h2]))
      · exact Or.inr (Or.inr (by rw [listLtCh_cons]; simp [h2]))
    · exact Or.inr (Or.inr (by rw [listLtCh_cons, if_pos h]))

theorem listLtCh_trans : ∀ (a b c : List Char),
    listLtCh a b = true → listLtCh b c = true → listLtCh a c = true
  | [], [], _, h, _ => by cases h
  | [], _ :: _, [], _, h2 => by cases h2
  | [], _ :: _, _ :: _, _, _ => rfl
  | _ :: _, [], _, h, _ => by cases h
  | _ :: _, _ :: _, [], _, h2 => by cases h2
  | a :: as, b :: bs, c :: cs, h1, h2 => by
    rw [listLtCh_cons] at h1 h2 ⊢
    by_cases hab : a.toNat < b.toNat
    · by_cases hbc : b.toNat < c.toNat
      · rw [if_pos (Nat.lt_trans hab hbc)]
      · by_cases hcb : c.toNat < b.toNat
        · rw [if_neg hbc, if_pos hcb] at h2; cases h2
        · have hbceq : b.toNat = c.toNat :=
            Nat.le_antisymm (Nat.le_of_not_lt hcb) (Nat.le_of_not_lt hbc)
          rw [if_pos (hbceq ▸ hab)]
    · by_cases hba : b.toNat < a.toNat
      · rw [if_neg hab, if_pos hba] at h1; cases h1
      · have habeq : a.toNat = b.toNat :=
          Nat.le_antisymm (Nat.le_of_not_lt hba) (Nat.le_of_not_lt hab)
        rw [if_neg hab, if_neg hba] at h1
        by_cases hbc : b.toNat < c.toNat
        · rw [if_pos (habeq ▸ hbc)]
        · by_cases hcb : c.toNat < b.toNat
          · rw [if_neg hbc, if_pos hcb] at h2; cases h2
          · rw [if_neg hbc, if_neg hcb] at h2
            have hac : ¬ a.toNat < c.toNat := by omega
            have hca : ¬ c.toNat < a.toNat := by omega
            rw [if_neg hac, if_neg hca]
            exact listLtCh_trans as bs cs h1 h2

theorem listLtCh_irrefl : ∀ (a : List Char), listLtCh a a = false
  | [] => rfl
  | _ :: as => by rw [listLtCh_cons]; simp [listLtCh_irrefl as]

theorem strLt_trans {a b c : String} (h1 : strLt a b = true) (h2 : strLt b c = true) :
    strLt a c = true := listLtCh_trans _ _ _ h1 h2

theorem strLt_irrefl (a : String) : strLt a a = false := listLtCh_irrefl _

theorem strLt_asymm {a b : String} (h : strLt a b = true) : strLt b a = false := by
  cases hh : strLt b a
  · rfl
  · have := strLt_trans h hh
    rw [strLt_irrefl] at this
    cases this

theorem strLt_connex {a b : String} (h1 : strLt a b = false) (h2 : strLt b a = false) :
    a = b := by
  rcases listLtCh_trichotomy a.data b.data with h | h | h
  · rw [strLt] at h1; rw [h1] at h; cases h
  · exact str_eq_of_data_eq h
  · rw [strLt] at h2; rw [h2] at h; cases h

theorem strLe_iff_not_lt {a b : String} : strLe a b = true ↔ strLt b a = false := by
  unfold strLe
  cases strLt b a <;> simp

theorem strLe_total (a b : String) : strLe a b = true ∨ strLe b a = true := by
  rw [strLe_iff_not_lt, strLe_iff_not_lt]
  cases h : strLt b a
  · exact Or.inl rfl
  · exact Or.inr (strLt_asymm h)

theorem strLe_trans {a b c : String} (h1 : strLe a b = true) (h2 : strLe b c = true) :
    strLe a c = true := by
  rw [strLe_iff_not_lt] at h1 h2 ⊢
  cases hca : strLt c a
  · rfl
  · exfalso
    rcases listLtCh_trichotomy c.data b.data with h | h | h
    · have hcb : strLt c b = true := h
      rw [hcb] at h2; cases h2
    · have hcb : c = b := str_eq_of_data_eq h
      subst hcb
      rw [hca] at h1; cases h1
    · have hbc : strLt b c = true := h
      have := strLt_trans hbc hca
      rw [this] at h1; cases h1

theorem strLe_refl (a : String) : strLe a a = true := by
  rw [strLe_iff_not_lt, strLt_irrefl]

/-! ## Text normalisation

Models `normalizeText` / `normalizeName` of the sources:
`String(s || "").replace(/ /g, " ").replace(/\s+/g, " ").trim()`.
Collapsing every whitespace run to a single blank and trimming the ends is
the same as splitting into maximal whitespace-free words and re-joining
them with single blanks, which is how it is rendered here. -/

/-- Whitespace characters of the JS `\s` class that occur in the handled
pages (ordinary blank, tab, newlines, vertical tab, form feed and the
no-break space that the sources replace explicitly). -/
def isWS (c : Char) : Bool :=
  c = ' ' || c = '\t' || c = '\n' || c = '\r' || c = '\x0b' || c = '\x0c' || c = ' '

/-- Split into maximal whitespace-free words; `cur` carries the current
word reversed. -/
def splitWSAux : List Char → List Char → List (List Char)
  | [], cur => if cur.isEmpty then [] else [cur.reverse]
  | c :: rest, cur =>
    if isWS c then
      if cur.isEmpty then splitWSAux rest [] else cur.reverse :: splitWSAux rest []
    else splitWSAux rest (c :: cur)

def splitWS (l : List Char) : List (List Char) := splitWSAux l []

def joinWords : List (List Char) → List Char
  | [] => []
  | [w] => w
  | w :: ws => w ++ ' ' :: joinWords ws

def normalizeName (s : String) : String := String.mk (joinWords (splitWS s.data))

theorem splitWSAux_words_ok : ∀ (l cur : List Char),
    (∀ c ∈ cur, isWS c = false) →
    ∀ w ∈ splitWSAux l cur, w ≠ [] ∧ ∀ c ∈ w, isWS c = false := by
  intro l
  induction l with
  | nil =>
    intro cur hcur w hw
    unfold splitWSAux at hw
    by_cases hc : cur.isEmpty
    · simp [hc] at hw
    · simp [hc] at hw
      subst hw
      constructor
      · simp [List.isEmpty_iff] at hc
        simpa using hc
      · intro c hcmem
        exact hcur c (by simpa using hcmem)
  | cons c rest ih =>
    intro cur hcur w hw
    unfold splitWSAux at hw
    by_cases hws : isWS c
    · rw [if_pos hws] at hw
      by_cases hc : cur.isEmpty
      · rw [if_pos hc] at hw
        exact ih [] (by simp) w hw
      · rw [if_neg hc] at hw
        rcases List.mem_cons.mp hw with h | h
        · subst h
          constructor
          · simp [List.isEmpty_iff] at hc
            simpa using hc
          · intro x hx
            exact hcur x (by simpa using hx)
        · exact ih [] (by simp) w h
    · rw [if_neg hws] at hw
      refine ih (c :: cur) ?_ w hw
      intro x hx
      rcases List.mem_cons.mp hx with h | h
      · subst h
        simpa using hws
      · exact hcur x h

theorem splitWS_words_ok (l : List Char) :
    ∀ w ∈ splitWS l, w ≠ [] ∧ ∀ c ∈ w, isWS c = false :=
  splitWSAux_words_ok l [] (by simp)

/-- On an input without any whitespace, splitting produces the input as a
single word (or nothing, if the input is empty). -/
theorem splitWSAux_noWS : ∀ (l cur : List Char), (∀ c ∈ l, isWS c = false) →
    splitWSAux l cur = if (cur.reverse ++ l).isEmpty then [] else [cur.reverse ++ l] := by
  intro l
  induction l with
  | nil =>
    intro cur _
    unfold splitWSAux
    by_cases hc : cur.isEmpty
    · have : cur = [] := by simpa [List.isEmpty_iff] using hc
      simp [this]
    · have : cur ≠ [] := by simpa [List.isEmpty_iff] using hc
      simp [List.isEmpty_iff, this]
  | cons c rest ih =>
    intro cur hl
    unfold splitWSAux
    have hc : isWS c = false := hl c (by simp)
    rw [if_neg (by simp [hc])]
    rw [ih (c :: cur) (fun x hx => hl x (by simp [hx]))]
    simp

theorem normalizeName_fixed (s : String) (h : ∀ c ∈ s.data, isWS c = false) :
    normalizeName s = s := by
  unfold normalizeName splitWS
  rw [splitWSAux_noWS s.data [] h]
  simp only [List.reverse_nil, List.nil_append]
  by_cases hs : s.data.isEmpty
  · rw [if_pos hs]
    have hnil : s.data = [] := by simpa [List.isEmpty_iff] using hs
    exact str_eq_of_data_eq hnil.symm
  · rw [if_neg hs]
    exact str_eq_of_data_eq rfl

/-- A normalised nonempty name contains at least one non-whitespace
character (so nothing whitespace-only is ever produced). -/
theorem normalizeName_no_ws_only (s : String) :
    (normalizeName s).data = [] ∨ ∃ c ∈ (normalizeName s).data, isWS c = false := by
  unfold normalizeName
  cases hsp : splitWS s.data with
  | nil => exact Or.inl (by simp [joinWords])
  | cons w ws =>
    right
    have hw := splitWS_words_ok s.data w (by rw [hsp]; simp)
    rcases hw with ⟨hne, hchars⟩
    cases hwd : w with
    | nil => exact absurd hwd hne
    | cons c cs =>
      refine ⟨c, ?_, hchars c (by rw [hwd]; simp)⟩
      cases ws with
      | nil => simp [joinWords]
      | cons w2 ws2 => simp [joinWords]

/-! ## Substring search (JS `String.prototype.includes`) -/

/-- `leadsWith pre l` holds when `pre` is an initial segment of `l`. -/
def leadsWith : List Char → List Char → Bool
  | [], _ => true
  | _ :: _, [] => false
  | a :: as, b :: bs => a == b && leadsWith as bs

/-- `occursIn sub l`: `sub` occurs contiguously somewhere inside `l`. -/
def occursIn (sub : List Char) : List Char → Bool
  | [] => leadsWith sub []
  | c :: ts => leadsWith sub (c :: ts) || occursIn sub ts

/-- Models `text.includes(key)` of JS. -/
def containsSub (text key : String) : Bool := occursIn key.data text.data

/-! ## Offering-type classifier (`classifyRcpNo`, update-ipo.js 428-468)

The two keyword vocabularies are copied verbatim from the source
(`RIGHTS_KEYWORDS` / `IPO_KEYWORDS`, update-ipo.js 32-55). -/

def RIGHTS_KEYWORDS : List String :=
  ["유상증자", "주주배정", "실권주", "신주인수권", "제3자배정",
   "제3자 배정", "일반공모(유상증자)", "주주우선공모"]

def IPO_KEYWORDS : List String :=
  ["신규상장", "상장예정", "상장 예정", "코스닥시장 상장", "유가증권시장 상장",
   "상장심사", "예비상장", "대표주관회사", "공모가", "기관투자자 수요예측"]

/-- `includesAny(text, keywords)` of update-ipo.js 367-370. -/
def includesAny (text : String) (keywords : List String) : Bool :=
  keywords.any (fun k => containsSub text k)

inductive OfferType
  | ipo
  | rights
  | unknown
deriving DecidableEq, Repr

/-- The keyword decision of `classifyRcpNo` (update-ipo.js 459-467), applied
to the normalised filing text recovered from the viewer document.  Rights
evidence is checked first; text matching neither vocabulary is `unknown`. -/
def classifyFilingText (text : String) : OfferType :=
  if includesAny text RIGHTS_KEYWORDS then OfferType.rights
  else if includesAny text IPO_KEYWORDS then OfferType.ipo
  else OfferType.unknown

/-! ## Encoding resolver (`pickBestDecodedHTML`, update-ipo.js 138-152)

`decodeBy cs` abstracts `decodeByCharset(buffer, cs)` for the fixed byte
buffer under scrutiny (the decoding itself is done by the external `iconv`
library / `Buffer.toString`); `scoreForEvents` abstracts the regex count of
`EVENT_RE_LOOSE` matches performed by the JS regex engine. -/

structure DecodedPick where
  html : String
  picked : String
  score : Nat
  altScore : Nat
deriving DecidableEq, Repr

/-- `headerCS || "utf-8"` — the declared/default charset. -/
def primaryCharset (headerCS : String) : String :=
  if headerCS = "" then "utf-8" else headerCS

/-- The alternate candidate charset (update-ipo.js 143-144). -/
def altCharset (headerCS : String) : String :=
  if containsSub headerCS "euc" || containsSub headerCS "ksc" then "utf-8" else "euc-kr"

def pickBestDecodedHTML (decodeBy : String → String) (scoreForEvents : String → Nat)
    (headerCS : String) : DecodedPick :=
  let primary := decodeBy (primaryCharset headerCS)
  let primaryScore := scoreForEvents primary
  let alt := decodeBy (altCharset headerCS)
  let altScore := scoreForEvents alt
  if primaryScore < altScore then
    { html := alt, picked := altCharset headerCS, score := altScore, altScore := primaryScore }
  else
    { html := primary, picked := primaryCharset headerCS, score := primaryScore,
      altScore := altScore }

/-! ## rcpNo extraction (`extractRcpNo`, update-ipo.js 116-119)

Models the leftmost match of the regex `rcpNo=(\d{14})`. -/

/-- Try to match `rcpNo=` followed by exactly 14 digits at the head of `l`,
returning the digit block. -/
def rcpAt (l : List Char) : Option (List Char) :=
  if leadsWith "rcpNo=".data l then
    let ds := (l.drop 6).take 14
    if ds.length = 14 && ds.all (fun c => c.isDigit) then some ds else none
  else none

/-- Leftmost occurrence of the `rcpNo=(\d{14})` pattern. -/
def findRcp : List Char → Option (List Char)
  | [] => none
  | c :: rest =>
    match rcpAt (c :: rest) with
    | some ds => some ds
    | none => findRcp rest

def extractRcpNo (href : String) : String :=
  match findRcp href.data with
  | some ds => String.mk ds
  | none => ""

/-- `/rcpNo=\d{14}/.test(h)` of update-ipo.js 345. -/
def hasRcpNoPattern (h : String) : Bool := (findRcp h.data).isSome

/-! ## Merged item shape and the mode filter of update-ipo.js `main`

`Item` is the record shape produced by `mergeEventsToItems`
(update-ipo.js 347-356); the absolute-URL diagnostic field `href_abs`
(computed by the external `URL` class) is not modelled. -/

structure Item where
  corp_name : String
  market_short : String
  market : String
  sbd_start : Option String
  sbd_end : Option String
  href : String
deriving DecidableEq, Repr

inductive Mode
  | ipo
  | exrights
  | all
deriving DecidableEq, Repr

/-- `--mode` defaults to `"ipo"` (update-ipo.js 477). -/
def defaultMode : Mode := Mode.ipo

structure ClassifiedItem where
  item : Item
  rcpNo : String
  offer_type : OfferType
deriving DecidableEq, Repr

/-- One iteration of the classification loop of `main`
(update-ipo.js 523-558).  `clsOf` abstracts the (cached, never-throwing)
outcome of `classifyRcpNo` for a filing reference: the surrounding
`try/catch` turns any fetch failure into `unknown`, so the outcome is a
total function into `OfferType`.  Returns `none` when the record is dropped
by the mode filter. -/
def classifyStep (mode : Mode) (clsOf : String → OfferType) (it : Item) :
    Option ClassifiedItem :=
  let rcpNo := extractRcpNo it.href
  if rcpNo = "" then
    if mode = Mode.all then
      some { item := it, rcpNo := "", offer_type := OfferType.unknown }
    else none
  else
    let cls := clsOf rcpNo
    match mode with
    | Mode.all => some { item := it, rcpNo := rcpNo, offer_type := cls }
    | Mode.exrights =>
      if cls = OfferType.rights then none
      else some { item := it, rcpNo := rcpNo, offer_type := cls }
    | Mode.ipo =>
      if cls = OfferType.ipo then some { item := it, rcpNo := rcpNo, offer_type := cls }
      else none

/-- The classified item list of `main` (update-ipo.js 520-558). -/
def classifiedItems (mode : Mode) (clsOf : String → OfferType) (merged : List Item) :
    List ClassifiedItem :=
  merged.filterMap (classifyStep mode clsOf)

/-! ## Event merger (`mergeEventsToItems`, update-ipo.js 314-364) -/

/-- Boundary kind of a raw sighting: `시작` (subscription start) or `종료`
(subscription end).  The extraction regex admits exactly these two marks. -/
inductive Mark
  | start
  | stop
deriving DecidableEq, Repr

structure Event where
  date : String
  market_short : String
  corp_name : String
  mark : Mark
  href : String
deriving DecidableEq, Repr

/-- `marketFromShort` of update-ipo.js 109-115. -/
def marketFromShort (short : String) : String :=
  if short = "유" then "KOSPI"
  else if short = "코" then "KOSDAQ"
  else if short = "넥" then "KONEX"
  else if short = "기" then "ETC"
  else "UNKNOWN"

/-- The merge key `` `${e.market_short}||${e.corp_name}` ``. -/
def eventKey (e : Event) : String := e.market_short ++ "||" ++ e.corp_name

/-- The per-key accumulator record created on first sighting
(update-ipo.js 320-327). -/
structure MergedAcc where
  corp_name : String
  market_short : String
  market : String
  sbd_start : Option String
  sbd_end : Option String
  hrefs : List String
deriving DecidableEq, Repr

def newAcc (e : Event) : MergedAcc :=
  { corp_name := e.corp_name, market_short := e.market_short,
    market := marketFromShort e.market_short,
    sbd_start := none, sbd_end := none, hrefs := [] }

/-- Applying one event to an accumulator (update-ipo.js 329-336):
collect the href, then earliest-wins for `시작` and latest-wins for
`종료` under the JS string comparison of ISO dates. -/
def applyEvent (acc : MergedAcc) (e : Event) : MergedAcc :=
  let acc1 := if e.href = "" then acc else { acc with hrefs := acc.hrefs ++ [e.href] }
  match e.mark with
  | Mark.start =>
    match acc1.sbd_start with
    | none => { acc1 with sbd_start := some e.date }
    | some s => if strLt e.date s then { acc1 with sbd_start := some e.date } else acc1
  | Mark.stop =>
    match acc1.sbd_end with
    | none => { acc1 with sbd_end := some e.date }
    | some s => if strLt s e.date then { acc1 with sbd_end := some e.date } else acc1

/-- Insertion-ordered association list standing for the JS `Map`:
update in place when the key exists, else append. -/
def updateAcc : List (String × MergedAcc) → String → Event → List (String × MergedAcc)
  | [], k, e => [(k, applyEvent (newAcc e) e)]
  | (k', a) :: rest, k, e =>
    if k' = k then (k', applyEvent a e) :: rest
    else (k', a) :: updateAcc rest k e

/-- The filled `Map` after the event loop of `mergeEventsToItems`. -/
def mergeMap (events : List Event) : List (String × MergedAcc) :=
  events.foldl (fun m e => updateAcc m (eventKey e) e) []

/-- Representative href: prefer one carrying an `rcpNo`, else the first
truthy one, else the empty string (update-ipo.js 344-345). -/
def pickHref (hrefs : List String) : String :=
  match hrefs.find? hasRcpNoPattern with
  | some h => h
  | none =>
    match hrefs.find? (fun h => h != "") with
    | some h => h
    | none => ""

/-- Imputation plus item assembly (update-ipo.js 340-355): a missing
boundary is copied from the other one. -/
def finalizeAcc (a : MergedAcc) : Item :=
  let st : Option String × Option String :=
    match a.sbd_start, a.sbd_end with
    | some s, none => (some s, some s)
    | none, some e => (some e, some e)
    | p, q => (p, q)
  { corp_name := a.corp_name, market_short := a.market_short, market := a.market,
    sbd_start := st.1, sbd_end := st.2, href := pickHref a.hrefs }

/-- Sort key `a.sbd_start || ""`. -/
def startKey (it : Item) : String := it.sbd_start.getD ""

/-- The comparator of update-ipo.js 358-361 as a total preorder:
ascending by `(sbd_start || "", corp_name)`. -/
def itemRel (a b : Item) : Prop :=
  strLt (startKey a) (startKey b) = true ∨
    (startKey a = startKey b ∧ strLe a.corp_name b.corp_name = true)

instance : DecidableRel itemRel := fun a b => by
  unfold itemRel
  infer_instance

theorem bool_eq_false {b : Bool} (h : ¬ b = true) : b = false := by
  cases b
  · rfl
  · exact absurd rfl h

instance : IsTotal Item itemRel where
  total a b := by
    by_cases h : strLt (startKey a) (startKey b) = true
    · exact Or.inl (Or.inl h)
    · by_cases h2 : strLt (startKey b) (startKey a) = true
      · exact Or.inr (Or.inl h2)
      · have heq := strLt_connex (bool_eq_false h) (bool_eq_false h2)
        rcases strLe_total a.corp_name b.corp_name with h3 | h3
        · exact Or.inl (Or.inr ⟨heq, h3⟩)
        · exact Or.inr (Or.inr ⟨heq.symm, h3⟩)

instance : IsTrans Item itemRel where
  trans a b c hab hbc := by
    unfold itemRel at *
    rcases hab with h1 | ⟨h1, h1'⟩ <;> rcases hbc with h2 | ⟨h2, h2'⟩
    · exact Or.inl (strLt_trans h1 h2)
    · exact Or.inl (h2 ▸ h1)
    · exact Or.inl (h1 ▸ h2)
    · exact Or.inr ⟨h1.trans h2, strLe_trans h1' h2'⟩

/-- `mergeEventsToItems` (update-ipo.js 314-364): fold the events into the
per-company map, impute missing boundaries, and sort by
`(sbd_start, corp_name)`.  `List.insertionSort` is a stable sorted
permutation, as is the JS `Array.prototype.sort`. -/
def mergeEventsToItems (events : List Event) : List Item :=
  List.insertionSort itemRel ((mergeMap events).map (fun p => finalizeAcc p.2))

/-! ## Characterisation of the merge fold -/

/-- The events carrying a given merge key, in input order. -/
def eventsFor (k : String) (events : List Event) : List Event :=
  events.filter (fun e => eventKey e == k)

def startsOf (l : List Event) : List String :=
  (l.filter (fun e => e.mark == Mark.start)).map (fun e => e.date)

def stopsOf (l : List Event) : List String :=
  (l.filter (fun e => e.mark == Mark.stop)).map (fun e => e.date)

/-- Dates of the `START` sightings for key `k`. -/
def startDates (k : String) (events : List Event) : List String :=
  startsOf (eventsFor k events)

/-- Dates of the `END` sightings for key `k`. -/
def endDates (k : String) (events : List Event) : List String :=
  stopsOf (eventsFor k events)

/-- One `시작` update of the accumulator, seen as a fold step. -/
def minStep (o : Option String) (d : String) : Option String :=
  match o with
  | none => some d
  | some s => if strLt d s then some d else some s

/-- One `종료` update of the accumulator, seen as a fold step. -/
def maxStep (o : Option String) (d : String) : Option String :=
  match o with
  | none => some d
  | some s => if strLt s d then some d else some s

theorem applyEvent_sbd_start (acc : MergedAcc) (e : Event) :
    (applyEvent acc e).sbd_start =
      if e.mark = Mark.start then minStep acc.sbd_start e.date else acc.sbd_start := by
  unfold applyEvent minStep
  by_cases he : e.href = "" <;>
    cases hm : e.mark <;>
    cases hs : acc.sbd_start <;>
    simp [he, hs] <;>
    (try split) <;>
    (try split) <;>
    simp [hs]

theorem applyEvent_sbd_end (acc : MergedAcc) (e : Event) :
    (applyEvent acc e).sbd_end =
      if e.mark = Mark.stop then maxStep acc.sbd_end e.date else acc.sbd_end := by
  unfold applyEvent maxStep
  by_cases he : e.href = "" <;>
    cases hm : e.mark <;>
    cases hs : acc.sbd_end <;>
    simp [he, hs] <;>
    (try split) <;>
    (try split) <;>
    simp [hs]

theorem foldl_applyEvent_start : ∀ (l : List Event) (a : MergedAcc),
    (l.foldl applyEvent a).sbd_start = (startsOf l).foldl minStep a.sbd_start := by
  intro l
  induction l with
  | nil => intro a; rfl
  | cons e es ih =>
    intro a
    rw [List.foldl_cons, ih]
    by_cases hm : e.mark = Mark.start
    · simp [startsOf, List.filter_cons, hm, applyEvent_sbd_start]
    · simp [startsOf, List.filter_cons, hm, applyEvent_sbd_start]

theorem foldl_applyEvent_end : ∀ (l : List Event) (a : MergedAcc),
    (l.foldl applyEvent a).sbd_end = (stopsOf l).foldl maxStep a.sbd_end := by
  intro l
  induction l with
  | nil => intro a; rfl
  | cons e es ih =>
    intro a
    rw [List.foldl_cons, ih]
    by_cases hm : e.mark = Mark.stop
    · simp [stopsOf, List.filter_cons, hm, applyEvent_sbd_end]
    · simp [stopsOf, List.filter_cons, hm, applyEvent_sbd_end]

/-- Folding a block of events into an optional pre-existing accumulator:
the shape taken by a `Map` entry after the merge loop. -/
def applyAll? : Option MergedAcc → List Event → Option MergedAcc
  | o, [] => o
  | o, e :: es => some (es.foldl applyEvent (applyEvent (o.getD (newAcc e)) e))

theorem applyAll?_some (a : MergedAcc) :
    ∀ (l : List Event), applyAll? (some a) l = some (l.foldl applyEvent a)
  | [] => rfl
  | _ :: _ => rfl

theorem lookup_updateAcc_self (m : List (String × MergedAcc)) (k : String) (e : Event) :
    (updateAcc m k e).lookup k = some (applyEvent ((m.lookup k).getD (newAcc e)) e) := by
  induction m with
  | nil => simp [updateAcc, List.lookup]
  | cons p rest ih =>
    obtain ⟨k', a⟩ := p
    by_cases hk : k' = k
    · subst hk
      simp [updateAcc, List.lookup]
    · have hk2 : (k == k') = false := by
        simp only [beq_eq_false_iff_ne, ne_eq]
        exact fun hh => hk hh.symm
      simp [updateAcc, hk, List.lookup, hk2, ih]

theorem lookup_updateAcc_other (m : List (String × MergedAcc)) (k k' : String) (e : Event)
    (h : k' ≠ k) : (updateAcc m k e).lookup k' = m.lookup k' := by
  induction m with
  | nil =>
    have hk2 : (k' == k) = false := by simpa [beq_eq_false_iff_ne] using h
    simp [updateAcc, List.lookup, hk2]
  | cons p rest ih =>
    obtain ⟨k0, a⟩ := p
    by_cases hk : k0 = k
    · subst hk
      have hk2 : (k' == k0) = false := by simpa [beq_eq_false_iff_ne] using h
      simp [updateAcc, List.lookup, hk2]
    · by_cases hq : k' = k0
      · subst hq
        simp [updateAcc, hk, List.lookup]
      · have hq2 : (k' == k0) = false := by simpa [beq_eq_false_iff_ne] using hq
        simp [updateAcc, hk, List.lookup, hq2, ih]

theorem mergeFold_lookup : ∀ (events : List Event) (m : List (String × MergedAcc)) (k : String),
    (events.foldl (fun m e => updateAcc m (eventKey e) e) m).lookup k =
      applyAll? (m.lookup k) (eventsFor k events) := by
  intro events
  induction events with
  | nil => intro m k; simp [eventsFor, applyAll?]
  | cons e es ih =>
    intro m k
    rw [List.foldl_cons, ih]
    by_cases hk : eventKey e = k
    · subst hk
      rw [lookup_updateAcc_self]
      have hev : eventsFor (eventKey e) (e :: es) = e :: eventsFor (eventKey e) es := by
        simp [eventsFor, List.filter_cons]
      rw [hev, applyAll?_some]
      rfl
    · rw [lookup_updateAcc_other _ _ _ _ (fun hh => hk hh.symm)]
      have hev : eventsFor k (e :: es) = eventsFor k es := by
        simp [eventsFor, List.filter_cons, hk]
      rw [hev]

theorem mergeMap_lookup (events : List Event) (k : String) :
    (mergeMap events).lookup k = applyAll? none (eventsFor k events) := by
  unfold mergeMap
  rw [mergeFold_lookup]
  rfl

theorem foldl_minStep_some : ∀ (l : List String) (x : String),
    ∃ s, l.foldl minStep (some x) = some s ∧ (s = x ∨ s ∈ l) ∧ strLe s x = true ∧
      ∀ d ∈ l, strLe s d = true
  | [], x => ⟨x, rfl, Or.inl rfl, strLe_refl x, by simp⟩
  | d :: ds, x => by
    have hstep : minStep (some x) d = some (if strLt d x then d else x) := by
      by_cases hdx : strLt d x = true <;> simp [minStep, hdx]
    rw [List.foldl_cons, hstep]
    obtain ⟨s, h1, h2, h3, h4⟩ := foldl_minStep_some ds (if strLt d x then d else x)
    have hyx : strLe (if strLt d x then d else x) x = true := by
      split
      next hlt => rw [strLe_iff_not_lt]; exact strLt_asymm hlt
      next => exact strLe_refl x
    have hyd : strLe (if strLt d x then d else x) d = true := by
      split
      next => exact strLe_refl d
      next hlt => rw [strLe_iff_not_lt]; exact bool_eq_false hlt
    refine ⟨s, h1, ?_, strLe_trans h3 hyx, ?_⟩
    · rcases h2 with h | h
      · by_cases hdx : strLt d x = true
        · rw [if_pos hdx] at h
          exact Or.inr (by simp [h])
        · rw [if_neg hdx] at h
          exact Or.inl h
      · exact Or.inr (List.mem_cons_of_mem _ h)
    · intro y hy
      rcases List.mem_cons.mp hy with h | h
      · subst h; exact strLe_trans h3 hyd
      · exact h4 y h

theorem foldl_maxStep_some : ∀ (l : List String) (x : String),
    ∃ s, l.foldl maxStep (some x) = some s ∧ (s = x ∨ s ∈ l) ∧ strLe x s = true ∧
      ∀ d ∈ l, strLe d s = true
  | [], x => ⟨x, rfl, Or.inl rfl, strLe_refl x, by simp⟩
  | d :: ds, x => by
    have hstep : maxStep (some x) d = some (if strLt x d then d else x) := by
      by_cases hxd : strLt x d = true <;> simp [maxStep, hxd]
    rw [List.foldl_cons, hstep]
    obtain ⟨s, h1, h2, h3, h4⟩ := foldl_maxStep_some ds (if strLt x d then d else x)
    have hxy : strLe x (if strLt x d then d else x) = true := by
      split
      next hlt => rw [strLe_iff_not_lt]; exact strLt_asymm hlt
      next => exact strLe_refl x
    have hdy : strLe d (if strLt x d then d else x) = true := by
      split
      next => exact strLe_refl d
      next hlt => rw [strLe_iff_not_lt]; exact bool_eq_false hlt
    refine ⟨s, h1, ?_, strLe_trans hxy h3, ?_⟩
    · rcases h2 with h | h
      · by_cases hxd : strLt x d = true
        · rw [if_pos hxd] at h
          exact Or.inr (by simp [h])
        · rw [if_neg hxd] at h
          exact Or.inl h
      · exact Or.inr (List.mem_cons_of_mem _ h)
    · intro y hy
      rcases List.mem_cons.mp hy with h | h
      · subst h; exact strLe_trans hdy h3
      · exact h4 y h

theorem foldl_minStep_eq_none {l : List String} (h : l.foldl minStep none = none) :
    l = [] := by
  cases l with
  | nil => rfl
  | cons d ds =>
    rw [List.foldl_cons, show minStep none d = some d from rfl] at h
    obtain ⟨s, h1, _, _, _⟩ := foldl_minStep_some ds d
    rw [h1] at h
    cases h

theorem foldl_maxStep_eq_none {l : List String} (h : l.foldl maxStep none = none) :
    l = [] := by
  cases l with
  | nil => rfl
  | cons d ds =>
    rw [List.foldl_cons, show maxStep none d = some d from rfl] at h
    obtain ⟨s, h1, _, _, _⟩ := foldl_maxStep_some ds d
    rw [h1] at h
    cases h

theorem foldl_minStep_of_ne {l : List String} (h : l ≠ []) :
    ∃ s, l.foldl minStep none = some s ∧ s ∈ l ∧ ∀ d ∈ l, strLe s d = true := by
  cases l with
  | nil => exact absurd rfl h
  | cons d ds =>
    rw [List.foldl_cons, show minStep none d = some d from rfl]
    obtain ⟨s, h1, h2, h3, h4⟩ := foldl_minStep_some ds d
    refine ⟨s, h1, ?_, ?_⟩
    · rcases h2 with hh | hh
      · simp [hh]
      · exact List.mem_cons_of_mem _ hh
    · intro y hy
      rcases List.mem_cons.mp hy with hh | hh
      · subst hh; exact h3
      · exact h4 y hh

theorem foldl_maxStep_of_ne {l : List String} (h : l ≠ []) :
    ∃ s, l.foldl maxStep none = some s ∧ s ∈ l ∧ ∀ d ∈ l, strLe d s = true := by
  cases l with
  | nil => exact absurd rfl h
  | cons d ds =>
    rw [List.foldl_cons, show maxStep none d = some d from rfl]
    obtain ⟨s, h1, h2, h3, h4⟩ := foldl_maxStep_some ds d
    refine ⟨s, h1, ?_, ?_⟩
    · rcases h2 with hh | hh
      · simp [hh]
      · exact List.mem_cons_of_mem _ hh
    · intro y hy
      rcases List.mem_cons.mp hy with hh | hh
      · subst hh; exact h3
      · exact h4 y hh

/-- The two boundary fields of a merged accumulator are exactly the
min-fold of the `START` dates and the max-fold of the `END` dates of the
events carrying its key. -/
theorem mergeMap_acc_fields (events : List Event) (k : String) (acc : MergedAcc)
    (h : (mergeMap events).lookup k = some acc) :
    acc.sbd_start = (startDates k events).foldl minStep none ∧
      acc.sbd_end = (endDates k events).foldl maxStep none := by
  rw [mergeMap_lookup] at h
  cases hev : eventsFor k events with
  | nil => rw [hev] at h; cases h
  | cons e es =>
    rw [hev] at h
    have hacc : acc = es.foldl applyEvent (applyEvent (newAcc e) e) := by
      have := h.symm
      injection this with h'
    constructor
    · rw [hacc, show es.foldl applyEvent (applyEvent (newAcc e) e)
          = (e :: es).foldl applyEvent (newAcc e) from rfl]
      rw [foldl_applyEvent_start]
      unfold startDates
      rw [hev]
      rfl
    · rw [hacc, show es.foldl applyEvent (applyEvent (newAcc e) e)
          = (e :: es).foldl applyEvent (newAcc e) from rfl]
      rw [foldl_applyEvent_end]
      unfold endDates
      rw [hev]
      rfl

/-! ## Supporting facts for the merger claims -/

theorem minStep_isSome (o : Option String) (d : String) : (minStep o d).isSome = true := by
  cases o <;> simp [minStep] <;> split <;> simp

theorem maxStep_isSome (o : Option String) (d : String) : (maxStep o d).isSome = true := by
  cases o <;> simp [maxStep] <;> split <;> simp

theorem applyEvent_populated (a : MergedAcc) (e : Event)
    (h : a.sbd_start ≠ none ∨ a.sbd_end ≠ none) :
    (applyEvent a e).sbd_start ≠ none ∨ (applyEvent a e).sbd_end ≠ none := by
  rcases h with h | h
  · left
    rw [applyEvent_sbd_start]
    split
    · intro hc
      have := minStep_isSome a.sbd_start e.date
      rw [hc] at this
      cases this
    · exact h
  · right
    rw [applyEvent_sbd_end]
    split
    · intro hc
      have := maxStep_isSome a.sbd_end e.date
      rw [hc] at this
      cases this
    · exact h

theorem applyEvent_new_populated (e : Event) :
    (applyEvent (newAcc e) e).sbd_start ≠ none ∨ (applyEvent (newAcc e) e).sbd_end ≠ none := by
  cases hm : e.mark
  · left
    rw [applyEvent_sbd_start, if_pos hm]
    intro hc
    have := minStep_isSome (newAcc e).sbd_start e.date
    rw [hc] at this
    cases this
  · right
    rw [applyEvent_sbd_end, if_pos hm]
    intro hc
    have := maxStep_isSome (newAcc e).sbd_end e.date
    rw [hc] at this
    cases this

theorem updateAcc_populated : ∀ (m : List (String × MergedAcc)) (k : String) (e : Event),
    (∀ p ∈ m, p.2.sbd_start ≠ none ∨ p.2.sbd_end ≠ none) →
    ∀ p ∈ updateAcc m k e, p.2.sbd_start ≠ none ∨ p.2.sbd_end ≠ none := by
  intro m
  induction m with
  | nil =>
    intro k e _ p hp
    simp only [updateAcc, List.mem_singleton] at hp
    subst hp
    exact applyEvent_new_populated e
  | cons q rest ih =>
    intro k e hm p hp
    obtain ⟨k0, a⟩ := q
    by_cases hk : k0 = k
    · subst hk
      rw [show updateAcc ((k0, a) :: rest) k0 e
            = (k0, applyEvent a e) :: rest from by simp [updateAcc]] at hp
      rcases List.mem_cons.mp hp with h | h
      · subst h
        exact applyEvent_populated a e (hm (k0, a) (by simp))
      · exact hm p (List.mem_cons_of_mem _ h)
    · rw [show updateAcc ((k0, a) :: rest) k e
            = (k0, a) :: updateAcc rest k e from by simp [updateAcc, hk]] at hp
      rcases List.mem_cons.mp hp with h | h
      · subst h
        exact hm (k0, a) (by simp)
      · exact ih k e (fun q hq => hm q (List.mem_cons_of_mem _ hq)) p h

theorem mergeMap_populated (events : List Event) :
    ∀ p ∈ mergeMap events, p.2.sbd_start ≠ none ∨ p.2.sbd_end ≠ none := by
  unfold mergeMap
  have hgen : ∀ (l : List Event) (m : List (String × MergedAcc)),
      (∀ p ∈ m, p.2.sbd_start ≠ none ∨ p.2.sbd_end ≠ none) →
      ∀ p ∈ l.foldl (fun m e => updateAcc m (eventKey e) e) m,
        p.2.sbd_start ≠ none ∨ p.2.sbd_end ≠ none := by
    intro l
    induction l with
    | nil => intro m hm p hp; exact hm p hp
    | cons e es ih =>
      intro m hm p hp
      rw [List.foldl_cons] at hp
      exact ih _ (updateAcc_populated m (eventKey e) e hm) p hp
  exact hgen events [] (by simp)

theorem finalizeAcc_populated (a : MergedAcc)
    (h : a.sbd_start ≠ none ∨ a.sbd_end ≠ none) :
    (finalizeAcc a).sbd_start.isSome = true ∧ (finalizeAcc a).sbd_end.isSome = true := by
  cases hs : a.sbd_start <;> cases he : a.sbd_end <;>
    simp [finalizeAcc, hs, he] at h ⊢

/-- `finalizeAcc` never invents a value: the fields of its output are
determined by the accumulator's fields through the imputation match. -/
theorem finalizeAcc_fields (a : MergedAcc) :
    ((finalizeAcc a).sbd_start, (finalizeAcc a).sbd_end) =
      match a.sbd_start, a.sbd_end with
      | some s, none => (some s, some s)
      | none, some e => (some e, some e)
      | p, q => (p, q) := by
  cases hs : a.sbd_start <;> cases he : a.sbd_end <;> simp [finalizeAcc, hs, he]

/-- C3 helper: a key is present in the merged map only if events carry it. -/
theorem eventsFor_ne_of_lookup {events : List Event} {k : String} {acc : MergedAcc}
    (h : (mergeMap events).lookup k = some acc) : eventsFor k events ≠ [] := by
  intro hh
  rw [mergeMap_lookup, hh] at h
  cases h

/-- C3.
For every RawEvent list and merge key present in it, the merged
accumulator carries the earliest of the `START` dates as
`sbd_start` and the latest of the `END` dates as `sbd_end`, whatever the
input order was. -/
theorem merge_earliest_start_latest_end (events : List Event) (k : String) (acc : MergedAcc)
    (h : (mergeMap events).lookup k = some acc) :
    (startDates k events ≠ [] →
      ∃ s, acc.sbd_start = some s ∧ s ∈ startDates k events ∧
        ∀ d ∈ startDates k events, strLe s d = true) ∧
    (endDates k events ≠ [] →
      ∃ e2, acc.sbd_end = some e2 ∧ e2 ∈ endDates k events ∧
        ∀ d ∈ endDates k events, strLe d e2 = true) := by
  obtain ⟨hs, he⟩ := mergeMap_acc_fields events k acc h
  constructor
  · intro hne
    obtain ⟨s, h1, h2, h3⟩ := foldl_minStep_of_ne hne
    exact ⟨s, by rw [hs, h1], h2, h3⟩
  · intro hne
    obtain ⟨e2, h1, h2, h3⟩ := foldl_maxStep_of_ne hne
    exact ⟨e2, by rw [he, h1], h2, h3⟩

def c3evS1 : Event :=
  { date := "2026-03-01", market_short := "기", corp_name := "케이뱅크",
    mark := Mark.start, href := "" }

def c3evS3 : Event := { c3evS1 with date := "2026-03-03" }

def c3evE5 : Event := { c3evS1 with date := "2026-03-05", mark := Mark.stop }

def c3evE4 : Event := { c3evS1 with date := "2026-03-04", mark := Mark.stop }

def c3acc : MergedAcc :=
  { corp_name := "케이뱅크", market_short := "기", market := "ETC",
    sbd_start := some "2026-03-01", sbd_end := some "2026-03-05", hrefs := [] }

/-- Witness for C3: `START` sightings on 2026-03-01/2026-03-03 (in either
order) merge to start 2026-03-01, `END` sightings on 2026-03-05/2026-03-04
merge to end 2026-03-05. -/
theorem merge_earliest_start_latest_end_witness :
    (mergeMap [c3evS1, c3evS3, c3evE5, c3evE4]).lookup "기||케이뱅크" = some c3acc ∧
    (mergeMap [c3evS3, c3evS1, c3evE4, c3evE5]).lookup "기||케이뱅크" = some c3acc ∧
    ((startDates "기||케이뱅크" [c3evS1, c3evS3, c3evE5, c3evE4] ≠ [] →
      ∃ s, c3acc.sbd_start = some s ∧
        s ∈ startDates "기||케이뱅크" [c3evS1, c3evS3, c3evE5, c3evE4] ∧
        ∀ d ∈ startDates "기||케이뱅크" [c3evS1, c3evS3, c3evE5, c3evE4],
          strLe s d = true) ∧
     (endDates "기||케이뱅크" [c3evS1, c3evS3, c3evE5, c3evE4] ≠ [] →
      ∃ e2, c3acc.sbd_end = some e2 ∧
        e2 ∈ endDates "기||케이뱅크" [c3evS1, c3evS3, c3evE5, c3evE4] ∧
        ∀ d ∈ endDates "기||케이뱅크" [c3evS1, c3evS3, c3evE5, c3evE4],
          strLe d e2 = true)) :=
  ⟨by decide, by decide,
   merge_earliest_start_latest_end [c3evS1, c3evS3, c3evE5, c3evE4] "기||케이뱅크" c3acc
     (by decide)⟩

/-- C5.
Every record the merger produces has both `sbd_start` and `sbd_end`
populated; when only one boundary kind was observed, the missing one is
imputed equal to the other.  The second conjunct carries the invariant to
every emitted item of `mergeEventsToItems`. -/
theorem merge_imputes_missing_boundary :
    (∀ (events : List Event) (k : String) (acc : MergedAcc),
      (mergeMap events).lookup k = some acc →
      (finalizeAcc acc).sbd_start.isSome = true ∧
      (finalizeAcc acc).sbd_end.isSome = true ∧
      (endDates k events = [] → (finalizeAcc acc).sbd_end = (finalizeAcc acc).sbd_start) ∧
      (startDates k events = [] → (finalizeAcc acc).sbd_start = (finalizeAcc acc).sbd_end)) ∧
    (∀ (events : List Event) (it : Item), it ∈ mergeEventsToItems events →
      it.sbd_start.isSome = true ∧ it.sbd_end.isSome = true) := by
  constructor
  · intro events k acc h
    obtain ⟨hs, he⟩ := mergeMap_acc_fields events k acc h
    have hne := eventsFor_ne_of_lookup h
    by_cases hS : startDates k events = []
    · have hE : endDates k events ≠ [] := by
        intro hE
        cases hev : eventsFor k events with
        | nil => exact hne hev
        | cons e0 es =>
          cases hm : e0.mark
          · have : e0.date ∈ startDates k events := by
              unfold startDates startsOf
              rw [hev]
              simp [List.filter_cons, hm]
            rw [hS] at this
            cases this
          · have : e0.date ∈ endDates k events := by
              unfold endDates stopsOf
              rw [hev]
              simp [List.filter_cons, hm]
            rw [hE] at this
            cases this
      obtain ⟨e2, h1, _, _⟩ := foldl_maxStep_of_ne hE
      have haccS : acc.sbd_start = none := by rw [hs, hS]; rfl
      have haccE : acc.sbd_end = some e2 := by rw [he, h1]
      refine ⟨?_, ?_, ?_, ?_⟩ <;> simp [finalizeAcc, haccS, haccE]
    · obtain ⟨s, h1, _, _⟩ := foldl_minStep_of_ne hS
      have haccS : acc.sbd_start = some s := by rw [hs, h1]
      by_cases hE : endDates k events = []
      · have haccE : acc.sbd_end = none := by rw [he, hE]; rfl
        refine ⟨?_, ?_, ?_, ?_⟩ <;> simp [finalizeAcc, haccS, haccE]
      · obtain ⟨e2, h2, _, _⟩ := foldl_maxStep_of_ne hE
        have haccE : acc.sbd_end = some e2 := by rw [he, h2]
        refine ⟨?_, ?_, ?_, ?_⟩ <;> simp [finalizeAcc, haccS, haccE, hE, hS]
  · intro events it hit
    unfold mergeEventsToItems at hit
    rw [(List.perm_insertionSort itemRel _).mem_iff] at hit
    obtain ⟨p, hp, hfin⟩ := List.mem_map.mp hit
    rw [← hfin]
    exact finalizeAcc_populated p.2 (mergeMap_populated events p hp)

def c5ev : Event :=
  { date := "2026-03-02", market_short := "기", corp_name := "가온누리",
    mark := Mark.start, href := "" }

def c5acc : MergedAcc :=
  { corp_name := "가온누리", market_short := "기", market := "ETC",
    sbd_start := some "2026-03-02", sbd_end := none, hrefs := [] }

/-- Witness for C5: a company with a single `START` sighting ends up with
`sbd_start == sbd_end`. -/
theorem merge_imputes_missing_boundary_witness :
    (mergeMap [c5ev]).lookup "기||가온누리" = some c5acc ∧
    (finalizeAcc c5acc).sbd_start = some "2026-03-02" ∧
    (finalizeAcc c5acc).sbd_end = some "2026-03-02" ∧
    ((finalizeAcc c5acc).sbd_start.isSome = true ∧
     (finalizeAcc c5acc).sbd_end.isSome = true ∧
     (endDates "기||가온누리" [c5ev] = [] →
       (finalizeAcc c5acc).sbd_end = (finalizeAcc c5acc).sbd_start) ∧
     (startDates "기||가온누리" [c5ev] = [] →
       (finalizeAcc c5acc).sbd_start = (finalizeAcc c5acc).sbd_end)) :=
  ⟨by decide, by decide, by decide,
   merge_imputes_missing_boundary.1 [c5ev] "기||가온누리" c5acc (by decide)⟩

/-- C6.
The keyword classifier returns `rights` exactly when the filing text
contains a rights-issue keyword (regardless of any listing keyword),
`ipo` exactly when it contains no rights-issue keyword but a new-listing
keyword, and `unknown` otherwise; a text containing keywords of both kinds
classifies as `rights`. -/
theorem classify_rights_priority (text : String) :
    (classifyFilingText text = OfferType.rights ↔
      includesAny text RIGHTS_KEYWORDS = true) ∧
    (classifyFilingText text = OfferType.ipo ↔
      (includesAny text RIGHTS_KEYWORDS = false ∧ includesAny text IPO_KEYWORDS = true)) ∧
    (classifyFilingText text = OfferType.unknown ↔
      (includesAny text RIGHTS_KEYWORDS = false ∧ includesAny text IPO_KEYWORDS = false)) ∧
    classifyFilingText "이 회사는 유상증자 및 신규상장 관련" = OfferType.rights := by
  refine ⟨?_, ?_, ?_, by decide⟩ <;>
    (cases h1 : includesAny text RIGHTS_KEYWORDS <;>
     cases h2 : includesAny text IPO_KEYWORDS <;>
     simp [classifyFilingText, h1, h2])

/-- C7.
The encoding resolver always decodes under one of the two candidate
charsets (which are distinct), picks the alternate exactly when it scores
strictly more event-pattern matches than the declared/default one, keeps
the declared/default decoding on ties, and in particular a zero-scoring
declared decoding loses to any positively scoring alternate.  It is a
total function, so it never raises. -/
theorem pickBest_selects_higher_score (decodeBy : String → String)
    (scoreForEvents : String → Nat) (headerCS : String) :
    altCharset headerCS ≠ primaryCharset headerCS ∧
    (scoreForEvents (decodeBy (primaryCharset headerCS))
        < scoreForEvents (decodeBy (altCharset headerCS)) →
      (pickBestDecodedHTML decodeBy scoreForEvents headerCS).html
          = decodeBy (altCharset headerCS) ∧
      (pickBestDecodedHTML decodeBy scoreForEvents headerCS).picked = altCharset headerCS) ∧
    (scoreForEvents (decodeBy (altCharset headerCS))
        ≤ scoreForEvents (decodeBy (primaryCharset headerCS)) →
      (pickBestDecodedHTML decodeBy scoreForEvents headerCS).html
          = decodeBy (primaryCharset headerCS) ∧
      (pickBestDecodedHTML decodeBy scoreForEvents headerCS).picked
          = primaryCharset headerCS) ∧
    (scoreForEvents (decodeBy (primaryCharset headerCS)) = 0 →
      0 < scoreForEvents (decodeBy (altCharset headerCS)) →
      (pickBestDecodedHTML decodeBy scoreForEvents headerCS).picked = altCharset headerCS) := by
  refine ⟨?_, ?_, ?_, ?_⟩
  · by_cases h0 : headerCS = ""
    · subst h0
      decide
    · unfold altCharset primaryCharset
      rw [if_neg h0]
      by_cases hc : (containsSub headerCS "euc" || containsSub headerCS "ksc") = true
      · rw [if_pos hc]
        intro hcontra
        rw [← hcontra] at hc
        exact absurd hc (by decide)
      · rw [if_neg hc]
        intro hcontra
        exact hc (by rw [← hcontra]; decide)
  · intro h
    simp only [pickBestDecodedHTML]
    rw [if_pos h]
    exact ⟨rfl, rfl⟩
  · intro h
    simp only [pickBestDecodedHTML]
    rw [if_neg (Nat.not_lt.mpr h)]
    exact ⟨rfl, rfl⟩
  · intro h0 hpos
    have h : scoreForEvents (decodeBy (primaryCharset headerCS))
        < scoreForEvents (decodeBy (altCharset headerCS)) := by omega
    simp only [pickBestDecodedHTML]
    rw [if_pos h]

/-- Witness for C7 at a concrete instantiation: with the identity decode
and length as score under an empty charset hint ("utf-8" primary,
"euc-kr" alternate, scores 5 < 6), the alternate is selected. -/
theorem pickBest_selects_higher_score_witness :
    (5 : Nat) < 6 ∧
    (pickBestDecodedHTML (fun cs => cs) String.length "").html = "euc-kr" ∧
    (pickBestDecodedHTML (fun cs => cs) String.length "").picked = "euc-kr" := by
  have h := (pickBest_selects_higher_score (fun cs => cs) String.length "").2.1
  refine ⟨by decide, ?_, ?_⟩
  · exact (h (by decide)).1
  · exact (h (by decide)).2

/-! ## C1: mode filter on classified records -/

def c1item : Item :=
  { corp_name := "테스트상사", market_short := "기", market := "ETC",
    sbd_start := some "2026-03-02", sbd_end := some "2026-03-03",
    href := "/dsaf001/main.do?rcpNo=20260222000123" }

/-- C1 counterexample.
The default operating mode is `ipo` (update-ipo.js 477), and under it a
record whose filing classifies as `unknown` is dropped from the output —
it is not retained as the claim states. -/
theorem default_mode_drops_unknown :
    defaultMode = Mode.ipo ∧
    extractRcpNo c1item.href = "20260222000123" ∧
    classifiedItems defaultMode (fun _ => OfferType.unknown) [c1item] = [] :=
  ⟨rfl, by decide, by decide⟩

/-- C1 amended.
Retention per mode (update-ipo.js 520-558): under the default mode `ipo`
a record is kept iff it has a filing reference and classifies as `ipo`
(so `unknown` is dropped); under `exrights` a record is kept iff it has a
filing reference and does not classify as `rights` (this is the mode that
retains `UNKNOWN` and drops only rights issues); under `all` every record
is kept, records without filing reference tagged `unknown`. -/
theorem mode_filter_keeps (clsOf : String → OfferType) (it : Item) :
    ((classifyStep Mode.ipo clsOf it).isSome = true ↔
      (extractRcpNo it.href ≠ "" ∧ clsOf (extractRcpNo it.href) = OfferType.ipo)) ∧
    ((classifyStep Mode.exrights clsOf it).isSome = true ↔
      (extractRcpNo it.href ≠ "" ∧ clsOf (extractRcpNo it.href) ≠ OfferType.rights)) ∧
    (classifyStep Mode.all clsOf it).isSome = true := by
  refine ⟨?_, ?_, ?_⟩
  · unfold classifyStep
    by_cases hr : extractRcpNo it.href = ""
    · simp [hr]
    · by_cases hc : clsOf (extractRcpNo it.href) = OfferType.ipo <;> simp [hr, hc]
  · unfold classifyStep
    by_cases hr : extractRcpNo it.href = ""
    · simp [hr]
    · by_cases hc : clsOf (extractRcpNo it.href) = OfferType.rights <;> simp [hr, hc]
  · unfold classifyStep
    by_cases hr : extractRcpNo it.href = "" <;> simp [hr]

/-! ## The part_000 finalizer (unnamed/part_000) -/

namespace Part000

/-- Item shape of the part_000 token-scan pipeline. -/
structure PItem where
  corp_name : String
  market_short : String
  market : String
  sbd_start : Option String
  sbd_end : Option String
deriving DecidableEq, Repr

/-- Operator-curated metadata (`ipo_meta_manual.json` entry). -/
structure Meta where
  brokers : String
  equalMin : String
  note : String
deriving DecidableEq, Repr

/-- Final emitted record of part_000 `main` (lines 223-233). -/
structure OutItem where
  corp_name : String
  market_short : String
  market : String
  sbd_start : Option String
  sbd_end : Option String
  brokers : String
  equalMin : String
  note : String
deriving DecidableEq, Repr

/-- `{...it, brokers: meta.brokers || "", ...}` of part_000 224-231. -/
def addMeta (metaMap : String → Option Meta) (it : PItem) : OutItem :=
  let m := (metaMap it.corp_name).getD { brokers := "", equalMin := "", note := "" }
  { corp_name := it.corp_name, market_short := it.market_short, market := it.market,
    sbd_start := it.sbd_start, sbd_end := it.sbd_end,
    brokers := m.brokers, equalMin := m.equalMin, note := m.note }

/-- The final sort of part_000 line 233: ascending by `sbd_start || ""`
only — no company-name tie-break. -/
def outRel (a b : OutItem) : Prop :=
  strLe (a.sbd_start.getD "") (b.sbd_start.getD "") = true

instance : DecidableRel outRel := fun a b => by
  unfold outRel
  infer_instance

instance : IsTotal OutItem outRel where
  total a b := strLe_total _ _

instance : IsTrans OutItem outRel where
  trans _ _ _ hab hbc := strLe_trans hab hbc

/-- `all.map(addMeta).sort(by sbd_start)` — the emitted items list of
part_000 `main` (lines 223-233). -/
def emitItems (metaMap : String → Option Meta) (all : List PItem) : List OutItem :=
  List.insertionSort outRel (all.map (addMeta metaMap))

end Part000

/-- The ordering the C4 claim asserts between adjacent emitted items:
strictly earlier start, or equal starts and name not greater (absent
start read as the empty string, as the comparator does). -/
def outPairRel (a b : Part000.OutItem) : Prop :=
  strLt (a.sbd_start.getD "") (b.sbd_start.getD "") = true ∨
    ((a.sbd_start.getD "") = (b.sbd_start.getD "") ∧ strLe a.corp_name b.corp_name = true)

def c4itemB : Part000.PItem :=
  { corp_name := "나래솔", market_short := "기", market := "ETC",
    sbd_start := some "2026-03-02", sbd_end := some "2026-03-03" }

def c4itemA : Part000.PItem := { c4itemB with corp_name := "가온누리" }

def c4outB : Part000.OutItem :=
  { corp_name := "나래솔", market_short := "기", market := "ETC",
    sbd_start := some "2026-03-02", sbd_end := some "2026-03-03",
    brokers := "", equalMin := "", note := "" }

def c4outA : Part000.OutItem := { c4outB with corp_name := "가온누리" }

/-- C4 counterexample.
The part_000 finalizer sorts only by start date: two same-day records
keep their incoming order, so the emitted list is not sorted by
`(subscription_start, company_name)` — the adjacent pair below has equal
starts and strictly descending names. -/
theorem emit_not_sorted_by_name_cex :
    Part000.emitItems (fun _ => none) [c4itemB, c4itemA] = [c4outB, c4outA] ∧
    c4outB.sbd_start = c4outA.sbd_start ∧
    ¬ outPairRel c4outB c4outA := by
  refine ⟨by decide, by decide, ?_⟩
  intro h
  rcases h with h | ⟨_, h⟩
  · exact absurd h (by decide)
  · exact absurd h (by decide)

/-- C4 amended.
The `mergeEventsToItems` output (update-ipo.js 358-361) is sorted
ascending by `(sbd_start || "", corp_name)` between every pair of
adjacent items; the part_000 finalizer instead guarantees only ascending
`sbd_start || ""` between adjacent emitted items (ties keep their prior
relative order), and in both comparators an absent start is read as the
empty string — which sorts before, not after, every present date. -/
theorem emitted_items_sorted :
    (∀ (events : List Event), (mergeEventsToItems events).Chain' itemRel) ∧
    (∀ (metaMap : String → Option Part000.Meta) (all : List Part000.PItem),
      (Part000.emitItems metaMap all).Chain' Part000.outRel) := by
  constructor
  · intro events
    exact List.Pairwise.chain' (List.sorted_insertionSort itemRel _)
  · intro metaMap all
    exact List.Pairwise.chain' (List.sorted_insertionSort Part000.outRel _)

/-! ## C2: the date-range finalizer of part_000 (`withinRange`, lines 173-178)

The JS code turns the ISO date strings into `Date` timestamps
(`"T00:00:00Z"` for the record start, `"T23:59:59Z"` for the record end)
and compares epoch instants.  Calendar dates are modelled as
year/month/day triples and the ECMAScript `Date.UTC` epoch conversion by
the standard civil-from-days formula; instants are epoch seconds. -/

structure CalDate where
  y : Nat
  m : Nat
  d : Nat
deriving DecidableEq, Repr

/-- Epoch day (days since 1970-01-01) of a proleptic-Gregorian civil date,
the arithmetic performed by `Date.UTC` for the years this pipeline
handles. -/
def epochDay (dt : CalDate) : Int :=
  let y' := if dt.m ≤ 2 then dt.y - 1 else dt.y
  let era := y' / 400
  let yoe := y' % 400
  let mp := (dt.m + 9) % 12
  let doy := (153 * mp + 2) / 5 + dt.d - 1
  let doe := yoe * 365 + yoe / 4 - yoe / 100 + doy
  (era * 146097 + doe : Int) - 719468

/-- Epoch seconds of `date + "T00:00:00Z"`. -/
def dayStartTs (dt : CalDate) : Int := 86400 * epochDay dt

/-- Epoch seconds of `date + "T23:59:59Z"`. -/
def dayEndTs (dt : CalDate) : Int := 86400 * epochDay dt + 86399

/-- A record as seen by the part_000 range filter: its two optional
subscription dates (already parsed from their ISO strings). -/
structure DatedItem where
  corp_name : String
  sbd_start : Option CalDate
  sbd_end : Option CalDate
deriving DecidableEq, Repr

/-- `withinRange` of part_000 lines 173-178: false when either date is
missing, else `end-of-record-day >= startUTC && start-of-record-day <=
endUTC`. -/
def withinRangeRec (it : DatedItem) (startUTC endUTC : Int) : Bool :=
  match it.sbd_start, it.sbd_end with
  | some s, some e => decide (dayEndTs e ≥ startUTC) && decide (dayStartTs s ≤ endUTC)
  | _, _ => false

/-- C2.
For a window running from any instant `h` of day `ws` to the last second
of day `we` (the shape `main` passes: "now" to end-of-month), a record
with both dates present survives the range filter iff its
`[sbd_start, sbd_end]` day interval overlaps `[ws, we]`:
`sbd_end ≥ ws ∧ sbd_start ≤ we`.  Records pass through `filter`
unmodified. -/
theorem withinRange_keeps_iff_overlap (l : List DatedItem) (it : DatedItem)
    (s e ws we : CalDate) (hs : it.sbd_start = some s) (he : it.sbd_end = some e)
    (h : Nat) (hh : h < 86400) :
    it ∈ l.filter (fun x => withinRangeRec x (86400 * epochDay ws + h) (dayEndTs we)) ↔
      (it ∈ l ∧ epochDay ws ≤ epochDay e ∧ epochDay s ≤ epochDay we) := by
  rw [List.mem_filter]
  have hpred : withinRangeRec it (86400 * epochDay ws + h) (dayEndTs we) = true ↔
      (epochDay ws ≤ epochDay e ∧ epochDay s ≤ epochDay we) := by
    unfold withinRangeRec
    rw [hs, he]
    simp only [Bool.and_eq_true, decide_eq_true_eq]
    unfold dayEndTs dayStartTs
    constructor
    · rintro ⟨h1, h2⟩
      constructor <;> omega
    · rintro ⟨h1, h2⟩
      constructor <;> omega
  rw [hpred]

def c2ws : CalDate := { y := 2026, m := 3, d := 1 }

def c2we : CalDate := { y := 2026, m := 3, d := 31 }

def c2recA : DatedItem :=
  { corp_name := "가온누리",
    sbd_start := some { y := 2026, m := 2, d := 28 },
    sbd_end := some { y := 2026, m := 3, d := 2 } }

def c2recB : DatedItem :=
  { corp_name := "나래솔",
    sbd_start := some { y := 2026, m := 1, d := 1 },
    sbd_end := some { y := 2026, m := 1, d := 5 } }

/-- Witness for C2: under window `[2026-03-01, 2026-03-31]` the record
spanning `[2026-02-28, 2026-03-02]` is kept (unchanged) and the record
spanning `[2026-01-01, 2026-01-05]` is excluded. -/
theorem withinRange_keeps_iff_overlap_witness :
    (0 : Nat) < 86400 ∧
    c2recA ∈ ([c2recA, c2recB].filter
      (fun x => withinRangeRec x (86400 * epochDay c2ws + 0) (dayEndTs c2we))) ∧
    c2recB ∉ ([c2recA, c2recB].filter
      (fun x => withinRangeRec x (86400 * epochDay c2ws + 0) (dayEndTs c2we))) := by
  have hA := withinRange_keeps_iff_overlap [c2recA, c2recB] c2recA
    { y := 2026, m := 2, d := 28 } { y := 2026, m := 3, d := 2 } c2ws c2we rfl rfl 0
    (by decide)
  have hB := withinRange_keeps_iff_overlap [c2recA, c2recB] c2recB
    { y := 2026, m := 1, d := 1 } { y := 2026, m := 1, d := 5 } c2ws c2we rfl rfl 0
    (by decide)
  refine ⟨by decide, hA.mpr ⟨by decide, by decide, by decide⟩, fun hmem => ?_⟩
  exact absurd (hB.mp hmem).2.1 (by decide)

/-! ## Decimal rendering (JS number-to-string for the template literals) -/

def digitCh : Nat → Char
  | 0 => '0'
  | 1 => '1'
  | 2 => '2'
  | 3 => '3'
  | 4 => '4'
  | 5 => '5'
  | 6 => '6'
  | 7 => '7'
  | 8 => '8'
  | _ => '9'

/-- Little-endian decimal digits, digit by digit via `% 10` / `/ 10`; the
first argument is recursion fuel (any value at least the number). -/
def decDigitsAux : Nat → Nat → List Char
  | _, 0 => []
  | 0, _ + 1 => []
  | fuel + 1, n + 1 => digitCh ((n + 1) % 10) :: decDigitsAux fuel ((n + 1) / 10)

/-- Little-endian decimal digits of a positive number. -/
def decDigits (n : Nat) : List Char := decDigitsAux n n

theorem decDigitsAux_congr : ∀ (n fuel1 fuel2 : Nat), n ≤ fuel1 → n ≤ fuel2 →
    decDigitsAux fuel1 n = decDigitsAux fuel2 n := by
  intro n
  induction n using Nat.strong_induction_on with
  | _ n ih =>
    intro fuel1 fuel2 h1 h2
    cases n with
    | zero => cases fuel1 <;> cases fuel2 <;> rfl
    | succ m =>
      cases fuel1 with
      | zero => omega
      | succ f1 =>
        cases fuel2 with
        | zero => omega
        | succ f2 =>
          show digitCh ((m + 1) % 10) :: decDigitsAux f1 ((m + 1) / 10)
            = digitCh ((m + 1) % 10) :: decDigitsAux f2 ((m + 1) / 10)
          have hlt : (m + 1) / 10 < m + 1 := Nat.div_lt_self (by omega) (by decide)
          rw [ih ((m + 1) / 10) hlt f1 f2 (by omega) (by omega)]

theorem decDigits_zero : decDigits 0 = [] := rfl

theorem decDigits_unfold_pos {n : Nat} (h : n ≠ 0) :
    decDigits n = digitCh (n % 10) :: decDigits (n / 10) := by
  cases n with
  | zero => exact absurd rfl h
  | succ m =>
    show decDigitsAux (m + 1) (m + 1) = _
    have hlt : (m + 1) / 10 < m + 1 := Nat.div_lt_self (by omega) (by decide)
    show digitCh ((m + 1) % 10) :: decDigitsAux m ((m + 1) / 10) = _
    rw [decDigitsAux_congr ((m + 1) / 10) m ((m + 1) / 10) (by omega) (Nat.le_refl _)]
    rfl

/-- Decimal rendering of a natural number, as the JS `${n}` template
produces for the year / day values of this pipeline. -/
def natToDec (n : Nat) : String :=
  if n = 0 then "0" else String.mk (decDigits n).reverse

/-- `pad2` of the sources: `String(n).padStart(2, "0")`. -/
def pad2 (n : Nat) : String :=
  if (natToDec n).data.length < 2 then "0" ++ natToDec n else natToDec n

/-- `toISODate(y, m, d)` / the template `` `${year}-${pad2(month)}-${pad2(curDay)}` ``. -/
def toISODate (y m d : Nat) : String :=
  natToDec y ++ "-" ++ pad2 m ++ "-" ++ pad2 d

theorem digitCh_isDigit (k : Nat) : (digitCh k).isDigit = true := by
  unfold digitCh
  rcases k with _|_|_|_|_|_|_|_|_|_ <;> first | decide | rfl

theorem digitCh_not_ws (k : Nat) : isWS (digitCh k) = false := by
  unfold digitCh
  rcases k with _|_|_|_|_|_|_|_|_|_ <;> first | decide | rfl

theorem digitCh_toNat {k : Nat} (h : k < 10) : (digitCh k).toNat = 48 + k := by
  unfold digitCh
  rcases k with _|_|_|_|_|_|_|_|_|_|k <;> first | decide | omega

/-- Evaluation of a little-endian digit list. -/
def decVal : List Char → Nat
  | [] => 0
  | c :: cs => (c.toNat - 48) + 10 * decVal cs

theorem decVal_decDigits (n : Nat) : decVal (decDigits n) = n := by
  induction n using Nat.strong_induction_on with
  | _ n ih =>
    by_cases h0 : n = 0
    · subst h0
      rfl
    · rw [decDigits_unfold_pos h0]
      have hrec := ih (n / 10) (Nat.div_lt_self (Nat.pos_of_ne_zero h0) (by decide))
      have h10 : n % 10 < 10 := Nat.mod_lt _ (by decide)
      simp only [decVal, hrec, digitCh_toNat h10]
      omega

theorem decDigits_mem (n : Nat) : ∀ c ∈ decDigits n, ∃ k, c = digitCh k := by
  induction n using Nat.strong_induction_on with
  | _ n ih =>
    intro c hc
    by_cases h0 : n = 0
    · subst h0
      cases hc
    · rw [decDigits_unfold_pos h0] at hc
      rcases List.mem_cons.mp hc with h | h
      · exact ⟨n % 10, h⟩
      · exact ih (n / 10) (Nat.div_lt_self (Nat.pos_of_ne_zero h0) (by decide)) c h

theorem natToDec_noWS (n : Nat) : ∀ c ∈ (natToDec n).data, isWS c = false := by
  intro c hc
  unfold natToDec at hc
  by_cases h0 : n = 0
  · rw [if_pos h0] at hc
    simp only [List.mem_singleton, show ("0" : String).data = ['0'] from rfl] at hc
    subst hc
    decide
  · rw [if_neg h0] at hc
    have hc2 : c ∈ (decDigits n).reverse := hc
    obtain ⟨k, hk⟩ := decDigits_mem n c (List.mem_reverse.mp hc2)
    rw [hk]
    exact digitCh_not_ws k

theorem natToDec_ne_empty (n : Nat) : natToDec n ≠ "" := by
  unfold natToDec
  by_cases h0 : n = 0
  · rw [if_pos h0]
    decide
  · rw [if_neg h0]
    intro hcontra
    have hdata : (decDigits n).reverse = [] := congrArg String.data hcontra
    have : decDigits n = [] := by simpa using hdata
    have hval := decVal_decDigits n
    rw [this] at hval
    exact h0 hval.symm

theorem natToDec_inj {n m : Nat} (h : natToDec n = natToDec m) : n = m := by
  unfold natToDec at h
  by_cases hn : n = 0 <;> by_cases hm : m = 0
  · rw [hn, hm]
  · rw [if_pos hn, if_neg hm] at h
    have hdata : ("0" : String).data = (decDigits m).reverse := congrArg String.data h
    have h1 : decDigits m = ['0'] := by
      have := congrArg List.reverse hdata
      simpa using this.symm
    have hval := decVal_decDigits m
    rw [h1] at hval
    simp [decVal] at hval
    exact absurd hval.symm hm
  · rw [if_neg hn, if_pos hm] at h
    have hdata : (decDigits n).reverse = ("0" : String).data := congrArg String.data h
    have h1 : decDigits n = ['0'] := by
      have := congrArg List.reverse hdata
      simpa using this
    have hval := decVal_decDigits n
    rw [h1] at hval
    simp [decVal] at hval
    exact absurd hval.symm hn
  · rw [if_neg hn, if_neg hm] at h
    have hdata : (decDigits n).reverse = (decDigits m).reverse := congrArg String.data h
    have hdig : decDigits n = decDigits m := by
      have := congrArg List.reverse hdata
      simpa using this
    have := decVal_decDigits n
    rw [hdig, decVal_decDigits m] at this
    exact this.symm

/-! ## C8: listed-name registry sanity gate (part_000 78-96, 193-254) -/

/-- The name-set accumulation of `loadListedCorpNameSet`: for each table
row, normalise the first cell text, drop empty names, and insert into the
`Set` (first occurrence kept, later duplicates ignored). -/
def buildNameSetAux (acc : List String) (rows : List String) : List String :=
  rows.foldl
    (fun set r =>
      let n := normalizeName r
      if n = "" then set else if n ∈ set then set else set ++ [n])
    acc

def buildNameSet (rows : List String) : List String := buildNameSetAux [] rows

/-- `loadListedCorpNameSet` (part_000 78-96): fetch + decode + row
extraction are external; given the normalised row texts it builds the
name set and throws when fewer than 500 entries resolve. -/
def loadListedCorpNameSet (rows : List String) : Except String (List String) :=
  let set := buildNameSet rows
  if set.length < 500 then
    Except.error "KIND listed set too small. Download may have failed."
  else Except.ok set

structure Feed where
  ok : Bool
  count : Nat
  excluded_listed : Nat
  items : List Part000.OutItem
deriving DecidableEq, Repr

/-- `uniqByCompanyKeepEarliest` of part_000 180-191. -/
def uniqUpd : List (String × Part000.PItem) → Part000.PItem → List (String × Part000.PItem)
  | [], it => [(it.corp_name, it)]
  | (k, prev) :: rest, it =>
    if k = it.corp_name then
      (k, if strLt (it.sbd_start.getD "9999") (prev.sbd_start.getD "9999") then it else prev)
        :: rest
    else (k, prev) :: uniqUpd rest it

def uniqByCompanyKeepEarliest (items : List Part000.PItem) : List Part000.PItem :=
  (items.foldl uniqUpd []).map (fun p => p.2)

/-- `main` of part_000 (193-254) after the month fetches: `monthItems` are
the per-month parse results, `inRange` abstracts the `withinRange(it,
start, end)` date test whose semantics is verified separately on parsed
dates.  A registry failure propagates as the thrown error, which
`main().catch` turns into `process.exit(1)`. -/
def runMain (registryRows : List String) (monthItems : List (List Part000.PItem))
    (metaMap : String → Option Part000.Meta) (inRange : Part000.PItem → Bool) :
    Except String Feed :=
  match loadListedCorpNameSet registryRows with
  | Except.error msg => Except.error msg
  | Except.ok listed =>
    let all0 := monthItems.join
    let all1 := all0.filter inRange
    let before := all1.length
    let all2 := all1.filter (fun it => !(listed.contains it.corp_name))
    let all3 := uniqByCompanyKeepEarliest all2
    let items := Part000.emitItems metaMap all3
    Except.ok { ok := true, count := items.length,
                excluded_listed := before - all2.length, items := items }

/-- Process exit status of one run: 1 through `main().catch(... exit(1))`,
0 on normal completion. -/
def exitCode (registryRows : List String) (monthItems : List (List Part000.PItem))
    (metaMap : String → Option Part000.Meta) (inRange : Part000.PItem → Bool) : Nat :=
  match runMain registryRows monthItems metaMap inRange with
  | Except.error _ => 1
  | Except.ok _ => 0

/-- C8.
A registry resolving below the fixed 500-name threshold aborts the run
(error, no feed, exit 1); a registry at or above it always completes with
exit 0 and an `ok` feed whose `count` equals its item count — in
particular with zero items when no month contributed any. -/
theorem registry_sanity_gate (registryRows : List String)
    (monthItems : List (List Part000.PItem)) (metaMap : String → Option Part000.Meta)
    (inRange : Part000.PItem → Bool) :
    ((buildNameSet registryRows).length < 500 →
      (∃ msg, runMain registryRows monthItems metaMap inRange = Except.error msg) ∧
      exitCode registryRows monthItems metaMap inRange = 1) ∧
    (500 ≤ (buildNameSet registryRows).length →
      (∃ feed, runMain registryRows monthItems metaMap inRange = Except.ok feed ∧
        feed.ok = true ∧ feed.count = feed.items.length) ∧
      exitCode registryRows monthItems metaMap inRange = 0) ∧
    (500 ≤ (buildNameSet registryRows).length →
      (∃ feed, runMain registryRows [] metaMap inRange = Except.ok feed ∧
        feed.items = [] ∧ feed.count = 0) ∧
      exitCode registryRows [] metaMap inRange = 0) := by
  have hload : ∀ (h : 500 ≤ (buildNameSet registryRows).length),
      loadListedCorpNameSet registryRows = Except.ok (buildNameSet registryRows) := by
    intro h
    unfold loadListedCorpNameSet
    rw [if_neg (Nat.not_lt.mpr h)]
  refine ⟨?_, ?_, ?_⟩
  · intro h
    have hload2 : loadListedCorpNameSet registryRows =
        Except.error "KIND listed set too small. Download may have failed." := by
      unfold loadListedCorpNameSet
      rw [if_pos h]
    constructor
    · exact ⟨_, by unfold runMain; rw [hload2]⟩
    · unfold exitCode runMain
      rw [hload2]
  · intro h
    constructor
    · unfold runMain
      rw [hload h]
      exact ⟨_, rfl, rfl, rfl⟩
    · unfold exitCode runMain
      rw [hload h]
  · intro h
    constructor
    · unfold runMain
      rw [hload h]
      exact ⟨_, rfl, rfl, rfl⟩
    · unfold exitCode runMain
      rw [hload h]

theorem buildNameSetAux_clean : ∀ (rows : List String) (acc : List String),
    (∀ r ∈ rows, normalizeName r = r ∧ r ≠ "") → (acc ++ rows).Nodup →
    buildNameSetAux acc rows = acc ++ rows := by
  intro rows
  induction rows with
  | nil => intro acc _ _; simp [buildNameSetAux]
  | cons r rs ih =>
    intro acc hr hd
    obtain ⟨hnorm, hne⟩ := hr r (by simp)
    have hnotmem : r ∉ acc := by
      intro hmem
      rcases List.nodup_append.mp hd with ⟨_, _, hdisj⟩
      exact hdisj hmem (by simp)
    have hstep : buildNameSetAux acc (r :: rs) = buildNameSetAux (acc ++ [r]) rs := by
      unfold buildNameSetAux
      rw [List.foldl_cons]
      simp only [hnorm]
      rw [if_neg hne, if_neg hnotmem]
    rw [hstep, ih (acc ++ [r]) (fun x hx => hr x (List.mem_cons_of_mem _ hx))
      (by rwa [List.append_assoc, List.singleton_append])]
    rw [List.append_assoc, List.singleton_append]

theorem buildNameSet_clean (rows : List String)
    (hr : ∀ r ∈ rows, normalizeName r = r ∧ r ≠ "") (hd : rows.Nodup) :
    buildNameSet rows = rows := by
  unfold buildNameSet
  rw [buildNameSetAux_clean rows [] hr (by simpa using hd)]
  simp

/-- A 500-entry registry: the decimal names "1" … "500". -/
def bigRows : List String := (List.range 500).map (fun i => natToDec (i + 1))

theorem bigRows_length : bigRows.length = 500 := by
  simp [bigRows]

theorem bigRows_nodup : bigRows.Nodup := by
  refine List.Nodup.map ?_ (List.nodup_range 500)
  intro a b hab
  have := natToDec_inj hab
  omega

theorem bigRows_clean : ∀ r ∈ bigRows, normalizeName r = r ∧ r ≠ "" := by
  intro r hr
  obtain ⟨i, _, hi⟩ := List.mem_map.mp hr
  subst hi
  exact ⟨normalizeName_fixed _ (natToDec_noWS _), natToDec_ne_empty _⟩

theorem bigRows_nameSet_length : (buildNameSet bigRows).length = 500 := by
  rw [buildNameSet_clean bigRows bigRows_clean bigRows_nodup, bigRows_length]

/-- Witness for C8: the empty registry aborts with exit 1; the 500-name
registry completes with exit 0 even with no month items. -/
theorem registry_sanity_gate_witness :
    ((buildNameSet []).length < 500 ∧
      exitCode [] [[]] (fun _ => none) (fun _ => true) = 1) ∧
    (500 ≤ (buildNameSet bigRows).length ∧
      exitCode bigRows [] (fun _ => none) (fun _ => true) = 0) := by
  constructor
  · have h := (registry_sanity_gate [] [[]] (fun _ => none) (fun _ => true)).1 (by decide)
    exact ⟨by decide, h.2⟩
  · have hlen : 500 ≤ (buildNameSet bigRows).length := by
      rw [bigRows_nameSet_length]
    have h := (registry_sanity_gate bigRows [] (fun _ => none) (fun _ => true)).2.1 hlen
    exact ⟨hlen, h.2⟩

/-! ## Generic insertion-ordered map update (the JS `Map.set`) -/

def mapUpd {α : Type} : List (String × α) → String → α → List (String × α)
  | [], k, v => [(k, v)]
  | (k0, v0) :: rest, k, v =>
    if k0 = k then (k0, v) :: rest else (k0, v0) :: mapUpd rest k v

/-! ## The part_000 token-scan extractor (`parseDartCalendar`, part_000 105-164)

The input token list abstracts
`$("body").text().replace(nbsp).split(/\s+/).filter(Boolean)` — the DOM
text extraction and split are external; the scan itself is translated
token by token. -/

namespace Part000

/-- `/^\d{1,2}$/`. -/
def isDayNum (t : String) : Bool :=
  match t.data with
  | [c] => c.isDigit
  | [c1, c2] => c1.isDigit && c2.isDigit
  | _ => false

/-- `/^\d{2}$/`. -/
def isDay2 (t : String) : Bool :=
  match t.data with
  | [c1, c2] => c1.isDigit && c2.isDigit
  | _ => false

/-- `Number(t)` on an all-digit token. -/
def digitsVal (l : List Char) : Nat :=
  l.foldl (fun acc c => acc * 10 + (c.toNat - 48)) 0

def tokVal (t : String) : Nat := digitsVal t.data

def isBoundaryTok (t : String) : Bool := t = "[시작]" || t = "[종료]"

def isMS (t : String) : Bool := t = "코" || t = "유" || t = "기"

/-- The shape test that breaks name collection: a 1-2 digit token followed
by a 2-digit token. -/
def dayPairShape (t : String) (rest : List String) : Bool :=
  match rest with
  | t2 :: _ => isDayNum t && isDay2 t2
  | [] => false

/-- The full day-marker test of the outer loop (part_000 120-127): shape
plus equal numeric values plus the 1..31 range. -/
def dayPairTaken (t : String) (rest : List String) : Bool :=
  match rest with
  | t2 :: _ =>
    isDayNum t && isDay2 t2 && (tokVal t2 == tokVal t) &&
      decide (1 ≤ tokVal t) && decide (tokVal t ≤ 31)
  | [] => false

/-- The inner name-collection loop (part_000 134-141): consume tokens
until a boundary token or a day-marker-shaped pair (or the end). -/
def consumeName : List String → List String × List String
  | [] => ([], [])
  | tok :: rest =>
    if isBoundaryTok tok || dayPairShape tok rest then ([], tok :: rest)
    else
      let pr := consumeName rest
      (tok :: pr.1, pr.2)

theorem consumeName_suffix : ∀ (l : List String), (consumeName l).2 <:+ l := by
  intro l
  induction l with
  | nil => simp [consumeName]
  | cons tok rest ih =>
    unfold consumeName
    by_cases h : (isBoundaryTok tok || dayPairShape tok rest) = true
    · rw [if_pos h]
    · rw [if_neg h]
      show (consumeName rest).2 <:+ tok :: rest
      exact ih.trans (List.suffix_cons tok rest)

/-- `marketShortToMarket` of part_000 98-102. -/
def marketShortToMarket (ms : String) : String :=
  if ms = "코" then "KOSDAQ" else if ms = "유" then "KOSPI" else "ETC"

/-- The two boundary assignments of part_000 154-155 (overwrite
semantics: the latest sighting wins). -/
def setBoundary (it : PItem) (which : String) (date : String) : PItem :=
  let it1 := if which = "[시작]" then { it with sbd_start := some date } else it
  if which = "[종료]" then { it1 with sbd_end := some date } else it1

/-- The guarded record step of part_000 144-157: record only when the
collection stopped at a boundary token, a current day is set and the name
is nonempty. -/
def recordStep (year month : Nat) (curDay : Option Nat) (map : List (String × PItem))
    (ms : String) (parts : List String) (which : String) : List (String × PItem) :=
  if isBoundaryTok which && curDay.isSome && !parts.isEmpty then
    let name := normalizeName (String.intercalate " " parts)
    let date := toISODate year month (curDay.getD 0)
    let item := ((map.lookup name).getD
      { corp_name := name, market_short := ms, market := marketShortToMarket ms,
        sbd_start := none, sbd_end := none })
    mapUpd map name (setBoundary item which date)
  else map

/-- The token loop of part_000 116-161.  Note the source's index jumps:
after a day marker the pair is consumed; after a name collection the
breaking token is consumed whether or not an event was recorded. -/
def scanTokens (year month : Nat) :
    List String → Option Nat → List (String × PItem) → List (String × PItem)
  | [], _, map => map
  | t :: rest, curDay, map =>
    if dayPairTaken t rest then
      scanTokens year month rest.tail (some (tokVal t)) map
    else if isMS t then
      match hpr : consumeName rest with
      | (_, []) => map
      | (parts, which :: r2) =>
        scanTokens year month r2 curDay (recordStep year month curDay map t parts which)
    else scanTokens year month rest curDay map
termination_by l _ _ => l.length
decreasing_by
  · simp only [List.length_cons]
    have h1 : rest.tail.length ≤ rest.length := by
      cases rest <;> simp
    omega
  · have hs := consumeName_suffix rest
    rw [hpr] at hs
    have h1 := hs.length_le
    simp only [List.length_cons] at h1 ⊢
    omega
  · simp only [List.length_cons]
    omega

/-- `parseDartCalendar` of part_000 105-164 (token-scan strategy). -/
def parseDartCalendar (year month : Nat) (tokens : List String) : List PItem :=
  (scanTokens year month tokens none []).map (fun p => p.2)

/-- Whether some adjacent token pair of the list would be taken as a day
marker by the outer loop. -/
def hasTakenPair : List String → Bool
  | [] => false
  | t :: rest => dayPairTaken t rest || hasTakenPair rest

end Part000

/-! ## The part_002 line-scan extractor (`parseDartCalendar`, part_002 131-205)

The per-line event extraction performed by the JS regex engine
(`reEvt.exec` with `/(코|유|기)\s+(.+?)\s+\[(시작|종료)\]/g`) is abstracted
as the `matcher` parameter returning the list of captured
`(market, raw name, boundary)` hits of a line, and the
`a[href*=rcpNo]` link map built by cheerio as `linkMap`.  Everything after
capture — normalisation, the empty-name guard, the day cursor, the map
updates and the imputation — is translated from the source. -/

namespace Part002

structure PItem where
  corp_name : String
  market_short : String
  market : String
  sbd_start : Option String
  sbd_end : Option String
  rcp_no : Option String
deriving DecidableEq, Repr

/-- One regex hit on a line. -/
structure Hit where
  ms : String
  rawName : String
  which : Mark
deriving DecidableEq, Repr

def whichStr : Mark → String
  | Mark.start => "시작"
  | Mark.stop => "종료"

/-- The `map.get(name) || {...}` default record of part_002 175-182. -/
def freshItem (h : Hit) (name : String) : PItem :=
  { corp_name := name, market_short := h.ms,
    market := Part000.marketShortToMarket h.ms,
    sbd_start := none, sbd_end := none, rcp_no := none }

/-- The updated record for one regex hit (part_002 175-192): fetch or
create the record for the normalised name, overwrite the boundary named
by the hit with the current date, attach an `rcpNo` when the link map
carries the reconstructed link text. -/
def hitItem (year month curDay : Nat) (linkMap : String → Option String)
    (map : List (String × PItem)) (h : Hit) (name : String) : PItem :=
  let item := (map.lookup name).getD (freshItem h name)
  let date := toISODate year month curDay
  let key := normalizeName (h.ms ++ " " ++ name ++ " [" ++ whichStr h.which ++ "]")
  { item with
    sbd_start := if h.which = Mark.start then some date else item.sbd_start
    sbd_end := if h.which = Mark.stop then some date else item.sbd_end
    rcp_no := match linkMap key with | some r => some r | none => item.rcp_no }

/-- The body of the inner `while ((mm = reEvt.exec(line)))` loop
(part_002 169-194) for one hit: empty normalised names are skipped. -/
def applyHit (year month : Nat) (curDay : Nat) (linkMap : String → Option String)
    (map : List (String × PItem)) (h : Hit) : List (String × PItem) :=
  let name := normalizeName h.rawName
  if name = "" then map
  else mapUpd map name (hitItem year month curDay linkMap map h name)

/-- `/^(\d{2})$/` — the day-line test of part_002 159. -/
def isTwoDigitLine (l : String) : Bool := Part000.isDay2 l

/-- The line loop of part_002 157-195. -/
def lineScan (matcher : String → List Hit) (linkMap : String → Option String)
    (year month : Nat) :
    List String → Option Nat → List (String × PItem) → List (String × PItem)
  | [], _, map => map
  | line :: rest, curDay, map =>
    if isTwoDigitLine line then
      let d := Part000.tokVal line
      lineScan matcher linkMap year month rest
        (if 1 ≤ d ∧ d ≤ 31 then some d else curDay) map
    else
      match curDay with
      | none => lineScan matcher linkMap year month rest none map
      | some d =>
        lineScan matcher linkMap year month rest (some d)
          ((matcher line).foldl (applyHit year month d linkMap) map)

/-- The imputation loop of part_002 197-204. -/
def imputeItem (it : PItem) : PItem :=
  let it1 :=
    if it.sbd_start.isNone && it.sbd_end.isSome then { it with sbd_start := it.sbd_end }
    else it
  if it1.sbd_end.isNone && it1.sbd_start.isSome then { it1 with sbd_end := it1.sbd_start }
  else it1

/-- `parseDartCalendar` of part_002 131-205 (line-scan strategy): split
into normalised nonempty lines, scan with the day cursor, impute. -/
def parseDartCalendar (matcher : String → List Hit) (linkMap : String → Option String)
    (year month : Nat) (rawLines : List String) : List PItem :=
  let lines := (rawLines.map normalizeName).filter (fun l => l != "")
  ((lineScan matcher linkMap year month lines none []).map (fun p => p.2)).map imputeItem

/-- `uniqByCompanyKeepEarliest` of part_002 235-246. -/
def uniqUpd : List (String × PItem) → PItem → List (String × PItem)
  | [], it => [(it.corp_name, it)]
  | (k, prev) :: rest, it =>
    if k = it.corp_name then
      (k, if strLt (it.sbd_start.getD "9999") (prev.sbd_start.getD "9999") then it else prev)
        :: rest
    else (k, prev) :: uniqUpd rest it

def uniqByCompanyKeepEarliest (items : List PItem) : List PItem :=
  (items.foldl uniqUpd []).map (fun p => p.2)

/-- Final emitted record of part_002 `main` (278-288). -/
structure OutItem where
  corp_name : String
  market_short : String
  market : String
  sbd_start : Option String
  sbd_end : Option String
  rcp_no : Option String
  brokers : String
  equalMin : String
  note : String
deriving DecidableEq, Repr

def addMeta (metaMap : String → Option Part000.Meta) (it : PItem) : OutItem :=
  let m := (metaMap it.corp_name).getD { brokers := "", equalMin := "", note := "" }
  { corp_name := it.corp_name, market_short := it.market_short, market := it.market,
    sbd_start := it.sbd_start, sbd_end := it.sbd_end, rcp_no := it.rcp_no,
    brokers := m.brokers, equalMin := m.equalMin, note := m.note }

def outRel (a b : OutItem) : Prop :=
  strLe (a.sbd_start.getD "") (b.sbd_start.getD "") = true

instance : DecidableRel outRel := fun a b => by
  unfold outRel
  infer_instance

instance : IsTotal OutItem outRel where
  total a b := strLe_total _ _

instance : IsTrans OutItem outRel where
  trans _ _ _ hab hbc := strLe_trans hab hbc

/-- The items pipeline of part_002 `main` (260-288): parse each fetched
month page, range-filter (`inRange` abstracts the `withinRange` date
test), drop listed companies, dedup, merge metadata and sort. -/
def runItems (matcher : String → List Hit) (linkMap : String → Option String)
    (pages : List (Nat × Nat × List String)) (inRange : PItem → Bool)
    (listed : List String) (metaMap : String → Option Part000.Meta) : List OutItem :=
  let all0 := (pages.map (fun p => parseDartCalendar matcher linkMap p.1 p.2.1 p.2.2)).join
  let all1 := all0.filter inRange
  let all2 := all1.filter (fun it => !(listed.contains it.corp_name))
  let all3 := uniqByCompanyKeepEarliest all2
  List.insertionSort outRel (all3.map (addMeta metaMap))

end Part002

/-! ## C10: events seen before any day marker are discarded -/

namespace Part000

theorem scanTokens_nil (year month : Nat) (cur : Option Nat)
    (map : List (String × PItem)) : scanTokens year month [] cur map = map := by
  rw [scanTokens]

theorem scanTokens_day (year month : Nat) (t : String) (rest : List String)
    (cur : Option Nat) (map : List (String × PItem)) (h : dayPairTaken t rest = true) :
    scanTokens year month (t :: rest) cur map
      = scanTokens year month rest.tail (some (tokVal t)) map := by
  rw [scanTokens, if_pos h]

theorem scanTokens_ms_nil (year month : Nat) (t : String) (rest : List String)
    (cur : Option Nat) (map : List (String × PItem)) (parts : List String)
    (h1 : dayPairTaken t rest = false) (h2 : isMS t = true)
    (h3 : consumeName rest = (parts, [])) :
    scanTokens year month (t :: rest) cur map = map := by
  rw [scanTokens, if_neg (by rw [h1]; simp), if_pos h2, h3]

theorem scanTokens_ms_cons (year month : Nat) (t : String) (rest : List String)
    (cur : Option Nat) (map : List (String × PItem)) (parts : List String)
    (which : String) (r2 : List String)
    (h1 : dayPairTaken t rest = false) (h2 : isMS t = true)
    (h3 : consumeName rest = (parts, which :: r2)) :
    scanTokens year month (t :: rest) cur map
      = scanTokens year month r2 cur (recordStep year month cur map t parts which) := by
  rw [scanTokens, if_neg (by rw [h1]; simp), if_pos h2, h3]

theorem scanTokens_other (year month : Nat) (t : String) (rest : List String)
    (cur : Option Nat) (map : List (String × PItem))
    (h1 : dayPairTaken t rest = false) (h2 : isMS t = false) :
    scanTokens year month (t :: rest) cur map = scanTokens year month rest cur map := by
  rw [scanTokens, if_neg (by rw [h1]; simp), if_neg (by rw [h2]; simp)]

/-- Recording is inert when the breaking token is not a boundary token. -/
theorem recordStep_not_boundary (year month : Nat) (cur : Option Nat)
    (map : List (String × PItem)) (ms : String) (parts : List String) (which : String)
    (h : isBoundaryTok which = false) :
    recordStep year month cur map ms parts which = map := by
  unfold recordStep
  rw [h]
  simp

/-- Recording is inert while the current-day cursor is unset. -/
theorem recordStep_no_day (year month : Nat) (map : List (String × PItem))
    (ms : String) (parts : List String) (which : String) :
    recordStep year month none map ms parts which = map := by
  unfold recordStep
  simp

/-- A token list without boundary tokens produces no records at all. -/
theorem scanTokens_no_boundary_aux (year month : Nat) :
    ∀ (n : Nat) (l : List String) (cur : Option Nat) (map : List (String × PItem)),
    l.length ≤ n → (∀ t ∈ l, isBoundaryTok t = false) →
    scanTokens year month l cur map = map := by
  intro n
  induction n with
  | zero =>
    intro l cur map hlen _
    have hnil : l = [] := List.length_eq_zero.mp (Nat.le_zero.mp hlen)
    subst hnil
    exact scanTokens_nil year month cur map
  | succ n ih =>
    intro l cur map hlen h
    cases l with
    | nil => exact scanTokens_nil year month cur map
    | cons t rest =>
      simp only [List.length_cons] at hlen
      by_cases hday : dayPairTaken t rest = true
      · rw [scanTokens_day year month t rest cur map hday]
        refine ih rest.tail _ _ ?_ ?_
        · have : rest.tail.length ≤ rest.length := by cases rest <;> simp
          omega
        · intro x hx
          exact h x (List.mem_cons_of_mem _ (List.mem_of_mem_tail hx))
      · by_cases hms : isMS t = true
        · rcases hpr : consumeName rest with ⟨parts, r⟩
          cases r with
          | nil =>
            exact scanTokens_ms_nil year month t rest cur map parts
              (bool_eq_false hday) hms hpr
          | cons which r2 =>
            rw [scanTokens_ms_cons year month t rest cur map parts which r2
              (bool_eq_false hday) hms hpr]
            have hsuf : (which :: r2) <:+ rest := by
              have hs := consumeName_suffix rest
              rw [hpr] at hs
              exact hs
            have hwhich : isBoundaryTok which = false :=
              h which (List.mem_cons_of_mem _ (hsuf.subset (by simp)))
            rw [recordStep_not_boundary year month cur map t parts which hwhich]
            refine ih r2 _ _ ?_ ?_
            · have := hsuf.length_le
              simp only [List.length_cons] at this
              omega
            · intro x hx
              exact h x (List.mem_cons_of_mem _
                (hsuf.subset (List.mem_cons_of_mem _ hx)))
        · rw [scanTokens_other year month t rest cur map
            (bool_eq_false hday) (bool_eq_false hms)]
          refine ih rest _ _ (by omega) ?_
          intro x hx
          exact h x (List.mem_cons_of_mem _ hx)

theorem scanTokens_no_boundary (year month : Nat) (l : List String) (cur : Option Nat)
    (map : List (String × PItem)) (h : ∀ t ∈ l, isBoundaryTok t = false) :
    scanTokens year month l cur map = map :=
  scanTokens_no_boundary_aux year month l.length l cur map (Nat.le_refl _) h

theorem hasTakenPair_suffix : ∀ {s u : List String}, s <:+ u →
    hasTakenPair u = false → hasTakenPair s = false := by
  intro s u
  induction u generalizing s with
  | nil =>
    intro h _
    rw [List.suffix_nil.mp h]
    rfl
  | cons a u' ih =>
    intro h hu
    have hsplit : dayPairTaken a u' = false ∧ hasTakenPair u' = false := by
      have := hu
      unfold hasTakenPair at this
      exact Bool.or_eq_false_iff.mp this
    rcases List.suffix_cons_iff.mp h with hh | hh
    · rw [hh]
      exact hu
    · exact ih hh hsplit.2

/-- The day-pair test only looks at the first following token. -/
theorem dayPairTaken_head (t t2 : String) (x y : List String) :
    dayPairTaken t (t2 :: x) = dayPairTaken t (t2 :: y) := rfl

theorem suffix_append_split : ∀ {s u v : List String}, s <:+ u ++ v →
    s <:+ v ∨ ∃ u2, u2 <:+ u ∧ s = u2 ++ v := by
  intro s u
  induction u generalizing s with
  | nil =>
    intro v h
    exact Or.inl (by simpa using h)
  | cons a u' ih =>
    intro v h
    rcases List.suffix_cons_iff.mp h with h1 | h1
    · exact Or.inr ⟨a :: u', List.suffix_refl _, by simpa using h1⟩
    · rcases ih h1 with h2 | ⟨u2, h2, h3⟩
      · exact Or.inl h2
      · exact Or.inr ⟨u2, h2.trans (List.suffix_cons a u'), h3⟩

/-- While the day cursor is unset and no day marker has yet been consumed,
the scanner records nothing; once the input continues into a boundary-free
region it still records nothing. -/
theorem scanTokens_before_day_aux (year month : Nat) :
    ∀ (n : Nat) (u v : List String) (map : List (String × PItem)),
    u.length ≤ n → hasTakenPair u = false → (∀ t ∈ v, isBoundaryTok t = false) →
    scanTokens year month (u ++ v) none map = map := by
  intro n
  induction n with
  | zero =>
    intro u v map hlen _ hv
    have hnil : u = [] := List.length_eq_zero.mp (Nat.le_zero.mp hlen)
    subst hnil
    exact scanTokens_no_boundary year month v none map hv
  | succ n ih =>
    intro u v map hlen hu hv
    cases u with
    | nil => exact scanTokens_no_boundary year month v none map hv
    | cons t u' =>
      simp only [List.length_cons] at hlen
      have husplit : dayPairTaken t u' = false ∧ hasTakenPair u' = false := by
        have := hu
        unfold hasTakenPair at this
        exact Bool.or_eq_false_iff.mp this
      rw [List.cons_append]
      by_cases hday : dayPairTaken t (u' ++ v) = true
      · cases u' with
        | nil =>
          rw [List.nil_append] at hday ⊢
          rw [scanTokens_day year month t v none map hday]
          refine scanTokens_no_boundary year month v.tail _ map ?_
          intro x hx
          exact hv x (List.mem_of_mem_tail hx)
        | cons t2 u'' =>
          rw [List.cons_append] at hday
          rw [dayPairTaken_head t t2 (u'' ++ v) u''] at hday
          rw [hday] at husplit
          cases husplit.1
      · by_cases hms : isMS t = true
        · rcases hpr : consumeName (u' ++ v) with ⟨parts, r⟩
          cases r with
          | nil =>
            exact scanTokens_ms_nil year month t (u' ++ v) none map parts
              (bool_eq_false hday) hms hpr
          | cons which r2 =>
            rw [scanTokens_ms_cons year month t (u' ++ v) none map parts which r2
              (bool_eq_false hday) hms hpr]
            rw [recordStep_no_day year month map t parts which]
            have hsuf : (which :: r2) <:+ u' ++ v := by
              have hs := consumeName_suffix (u' ++ v)
              rw [hpr] at hs
              exact hs
            have hsuf2 : r2 <:+ u' ++ v :=
              (List.suffix_cons which r2).trans hsuf
            rcases suffix_append_split hsuf2 with hsv | ⟨u2, hu2, heq⟩
            · refine scanTokens_no_boundary year month r2 none map ?_
              intro x hx
              exact hv x (hsv.subset hx)
            · rw [heq]
              refine ih u2 v map ?_ (hasTakenPair_suffix hu2 husplit.2) hv
              have := hu2.length_le
              omega
        · rw [scanTokens_other year month t (u' ++ v) none map
            (bool_eq_false hday) (bool_eq_false hms)]
          exact ih u' v map (by omega) husplit.2 hv

end Part000

namespace Part002

theorem lineScan_empty_matcher (matcher : String → List Hit)
    (linkMap : String → Option String) (year month : Nat) :
    ∀ (v : List String) (cur : Option Nat) (map : List (String × PItem)),
    (∀ l ∈ v, matcher l = []) →
    lineScan matcher linkMap year month v cur map = map := by
  intro v
  induction v with
  | nil => intro cur map _; rfl
  | cons line rest ih =>
    intro cur map h
    unfold lineScan
    by_cases hd : isTwoDigitLine line = true
    · rw [if_pos hd]
      exact ih _ _ (fun l hl => h l (List.mem_cons_of_mem _ hl))
    · rw [if_neg hd]
      cases cur with
      | none => exact ih _ _ (fun l hl => h l (List.mem_cons_of_mem _ hl))
      | some d =>
        rw [h line (by simp)]
        exact ih _ _ (fun l hl => h l (List.mem_cons_of_mem _ hl))

theorem lineScan_before_day (matcher : String → List Hit)
    (linkMap : String → Option String) (year month : Nat) :
    ∀ (u v : List String) (map : List (String × PItem)),
    (∀ l ∈ u, isTwoDigitLine l = false) → (∀ l ∈ v, matcher l = []) →
    lineScan matcher linkMap year month (u ++ v) none map = map := by
  intro u
  induction u with
  | nil =>
    intro v map _ hv
    exact lineScan_empty_matcher matcher linkMap year month v none map hv
  | cons line u' ih =>
    intro v map hu hv
    rw [List.cons_append]
    unfold lineScan
    rw [if_neg (by rw [hu line (by simp)]; simp)]
    exact ih v map (fun l hl => hu l (List.mem_cons_of_mem _ hl)) hv

end Part002

/-- C10.
In both token-scan (part_000) and line-scan (part_002 / update-ipo.mjs)
extraction, event patterns encountered before the first day-of-month
marker are discarded: an input whose boundary markers (token scan) or
event-pattern hits (line scan) all lie before any day marker yields zero
extracted events, because an event is only recorded while the current-day
cursor is set. -/
theorem events_before_first_day_discarded :
    (∀ (year month : Nat) (u v : List String),
      Part000.hasTakenPair u = false →
      (∀ t ∈ v, Part000.isBoundaryTok t = false) →
      Part000.parseDartCalendar year month (u ++ v) = []) ∧
    (∀ (matcher : String → List Part002.Hit) (linkMap : String → Option String)
      (year month : Nat) (rawLines u v : List String),
      (rawLines.map normalizeName).filter (fun l => l != "") = u ++ v →
      (∀ l ∈ u, Part002.isTwoDigitLine l = false) →
      (∀ l ∈ v, matcher l = []) →
      Part002.parseDartCalendar matcher linkMap year month rawLines = []) := by
  constructor
  · intro year month u v hu hv
    unfold Part000.parseDartCalendar
    rw [Part000.scanTokens_before_day_aux year month u.length u v [] (Nat.le_refl _) hu hv]
    rfl
  · intro matcher linkMap year month rawLines u v hsplit hu hv
    unfold Part002.parseDartCalendar
    rw [hsplit]
    show List.map Part002.imputeItem
      (List.map (fun p => p.2) (Part002.lineScan matcher linkMap year month (u ++ v) none []))
        = []
    rw [Part002.lineScan_before_day matcher linkMap year month u v [] hu hv]
    rfl

def c10matcher : String → List Part002.Hit :=
  fun l =>
    if l = "기 케이뱅크 [시작]" then
      [{ ms := "기", rawName := "케이뱅크", which := Mark.start }]
    else []

/-- Witness for C10: a token stream whose whole event pattern precedes any
day marker parses to zero events, and a line input whose event line
precedes the first day line parses to zero events. -/
theorem events_before_first_day_discarded_witness :
    (Part000.hasTakenPair ["기", "케이뱅크", "[시작]"] = false ∧
      Part000.parseDartCalendar 2026 3 (["기", "케이뱅크", "[시작]"] ++ []) = []) ∧
    ((["기 케이뱅크 [시작]", "02"].map normalizeName).filter (fun l => l != "")
        = ["기 케이뱅크 [시작]"] ++ ["02"] ∧
      Part002.parseDartCalendar c10matcher (fun _ => none) 2026 3
        ["기 케이뱅크 [시작]", "02"] = []) := by
  constructor
  · exact ⟨by decide,
      events_before_first_day_discarded.1 2026 3 ["기", "케이뱅크", "[시작]"] []
        (by decide) (by decide)⟩
  · refine ⟨by decide, ?_⟩
    exact events_before_first_day_discarded.2 c10matcher (fun _ => none) 2026 3
      ["기 케이뱅크 [시작]", "02"] ["기 케이뱅크 [시작]"] ["02"]
      (by decide) (by decide) (by decide)

/-! ## C9: shape of the emitted feed items -/

theorem str_data_append (a b : String) : (a ++ b).data = a.data ++ b.data := by
  cases a
  cases b
  rfl

theorem str_eq_empty_iff {s : String} : s = "" ↔ s.data = [] := by
  constructor
  · intro h
    rw [h]
  · intro h
    exact str_eq_of_data_eq (by rw [h])

/-- `YYYY-MM-DD`: ten characters, digits around the two dashes. -/
def isoShape (s : String) : Bool :=
  match s.data with
  | [y1, y2, y3, y4, h1, m1, m2, h2, d1, d2] =>
    y1.isDigit && y2.isDigit && y3.isDigit && y4.isDigit && (h1 == '-') &&
      m1.isDigit && m2.isDigit && (h2 == '-') && d1.isDigit && d2.isDigit
  | _ => false

theorem decDigits4 {n : Nat} (h1 : 1000 ≤ n) (h2 : n ≤ 9999) :
    decDigits n = [digitCh (n % 10), digitCh (n / 10 % 10),
      digitCh (n / 10 / 10 % 10), digitCh (n / 10 / 10 / 10 % 10)] := by
  rw [decDigits_unfold_pos (show n ≠ 0 by omega),
      decDigits_unfold_pos (show n / 10 ≠ 0 by omega),
      decDigits_unfold_pos (show n / 10 / 10 ≠ 0 by omega),
      decDigits_unfold_pos (show n / 10 / 10 / 10 ≠ 0 by omega),
      show n / 10 / 10 / 10 / 10 = 0 by omega, decDigits_zero]

theorem decDigits1 {n : Nat} (h1 : 1 ≤ n) (h2 : n ≤ 9) :
    decDigits n = [digitCh (n % 10)] := by
  rw [decDigits_unfold_pos (show n ≠ 0 by omega), show n / 10 = 0 by omega, decDigits_zero]

theorem decDigits2 {n : Nat} (h1 : 10 ≤ n) (h2 : n ≤ 99) :
    decDigits n = [digitCh (n % 10), digitCh (n / 10 % 10)] := by
  rw [decDigits_unfold_pos (show n ≠ 0 by omega),
      decDigits_unfold_pos (show n / 10 ≠ 0 by omega),
      show n / 10 / 10 = 0 by omega, decDigits_zero]

theorem natToDec_data4 {n : Nat} (h1 : 1000 ≤ n) (h2 : n ≤ 9999) :
    (natToDec n).data = [digitCh (n / 10 / 10 / 10 % 10), digitCh (n / 10 / 10 % 10),
      digitCh (n / 10 % 10), digitCh (n % 10)] := by
  unfold natToDec
  rw [if_neg (show n ≠ 0 by omega)]
  show (decDigits n).reverse = _
  rw [decDigits4 h1 h2]
  rfl

theorem pad2_data {m : Nat} (h1 : 1 ≤ m) (h2 : m ≤ 99) :
    ∃ a b, (pad2 m).data = [a, b] ∧ a.isDigit = true ∧ b.isDigit = true := by
  by_cases hm : m ≤ 9
  · have hdata : (natToDec m).data = [digitCh (m % 10)] := by
      unfold natToDec
      rw [if_neg (show m ≠ 0 by omega)]
      show (decDigits m).reverse = _
      rw [decDigits1 h1 hm]
      rfl
    refine ⟨'0', digitCh (m % 10), ?_, by decide, digitCh_isDigit _⟩
    unfold pad2
    rw [hdata]
    rw [if_pos (by simp)]
    rw [str_data_append, hdata]
    rfl
  · have h10 : 10 ≤ m := by omega
    have hdata : (natToDec m).data = [digitCh (m / 10 % 10), digitCh (m % 10)] := by
      unfold natToDec
      rw [if_neg (show m ≠ 0 by omega)]
      show (decDigits m).reverse = _
      rw [decDigits2 h10 h2]
      rfl
    refine ⟨digitCh (m / 10 % 10), digitCh (m % 10), ?_, digitCh_isDigit _,
      digitCh_isDigit _⟩
    unfold pad2
    rw [hdata]
    rw [if_neg (by simp)]
    exact hdata

theorem toISODate_shape {y m d : Nat} (hy1 : 1000 ≤ y) (hy2 : y ≤ 9999)
    (hm1 : 1 ≤ m) (hm2 : m ≤ 99) (hd1 : 1 ≤ d) (hd2 : d ≤ 99) :
    isoShape (toISODate y m d) = true := by
  obtain ⟨ma, mb, hmdata, hma, hmb⟩ := pad2_data hm1 hm2
  obtain ⟨da, db, hddata, hda, hdb⟩ := pad2_data hd1 hd2
  have hy := natToDec_data4 hy1 hy2
  unfold isoShape toISODate
  rw [str_data_append, str_data_append, str_data_append, str_data_append,
      hy, hmdata, hddata, show ("-" : String).data = ['-'] from rfl]
  simp only [List.cons_append, List.nil_append]
  simp [hma, hmb, hda, hdb, digitCh_isDigit]

theorem lookup_mem {α : Type} (m : List (String × α)) (k : String) (v : α)
    (h : m.lookup k = some v) : (k, v) ∈ m := by
  induction m with
  | nil => cases h
  | cons q rest ih =>
    obtain ⟨k0, v0⟩ := q
    by_cases hk : k = k0
    · subst hk
      simp [List.lookup] at h
      subst h
      exact List.mem_cons_self _ _
    · have hke : (k == k0) = false := beq_eq_false_iff_ne.mpr hk
      simp [List.lookup, hke] at h
      exact List.mem_cons_of_mem _ (ih h)

theorem mapUpd_mem {α : Type} (k : String) (v : α) :
    ∀ (m : List (String × α)) (p : String × α), p ∈ mapUpd m k v → p.2 = v ∨ p ∈ m := by
  intro m
  induction m with
  | nil =>
    intro p hp
    rcases List.mem_cons.mp hp with h | h
    · exact Or.inl (by rw [h])
    · cases h
  | cons q rest ih =>
    intro p hp
    obtain ⟨k0, v0⟩ := q
    unfold mapUpd at hp
    by_cases hk : k0 = k
    · rw [if_pos hk] at hp
      rcases List.mem_cons.mp hp with h | h
      · exact Or.inl (by rw [h])
      · exact Or.inr (List.mem_cons_of_mem _ h)
    · rw [if_neg hk] at hp
      rcases List.mem_cons.mp hp with h | h
      · exact Or.inr (by rw [h]; exact List.mem_cons_self _ _)
      · rcases ih p h with h2 | h2
        · exact Or.inl h2
        · exact Or.inr (List.mem_cons_of_mem _ h2)

/-- A nonempty normalised name holds at least one non-whitespace
character. -/
theorem normalizeName_good {raw : String} (h : normalizeName raw ≠ "") :
    ∃ c ∈ (normalizeName raw).data, isWS c = false := by
  rcases normalizeName_no_ws_only raw with h0 | h0
  · exact absurd (str_eq_empty_iff.mpr h0) h
  · exact h0

namespace Part002

/-- A date slot of a record under construction: still unset, or the ISO
rendering of an in-range day of the page's month. -/
def goodDate (year month : Nat) (o : Option String) : Prop :=
  o = none ∨ ∃ dd, 1 ≤ dd ∧ dd ≤ 31 ∧ o = some (toISODate year month dd)

/-- The stable part of the per-record invariant of the part_002 scan:
nonempty non-whitespace name and both date slots unset-or-well-formed. -/
def goodBase (year month : Nat) (it : PItem) : Prop :=
  it.corp_name ≠ "" ∧ (∃ c ∈ it.corp_name.data, isWS c = false) ∧
    goodDate year month it.sbd_start ∧ goodDate year month it.sbd_end

/-- Full per-record invariant: additionally, at least one boundary has
been sighted. -/
def goodPI (year month : Nat) (it : PItem) : Prop :=
  goodBase year month it ∧ (it.sbd_start ≠ none ∨ it.sbd_end ≠ none)

theorem hitItem_corp (year month d : Nat) (linkMap : String → Option String)
    (map : List (String × PItem)) (h : Hit) (name : String) :
    (hitItem year month d linkMap map h name).corp_name =
      ((map.lookup name).getD (freshItem h name)).corp_name := rfl

theorem hitItem_sbds (year month d : Nat) (linkMap : String → Option String)
    (map : List (String × PItem)) (h : Hit) (name : String) :
    (hitItem year month d linkMap map h name).sbd_start =
      (if h.which = Mark.start then some (toISODate year month d)
       else ((map.lookup name).getD (freshItem h name)).sbd_start) := rfl

theorem hitItem_sbde (year month d : Nat) (linkMap : String → Option String)
    (map : List (String × PItem)) (h : Hit) (name : String) :
    (hitItem year month d linkMap map h name).sbd_end =
      (if h.which = Mark.stop then some (toISODate year month d)
       else ((map.lookup name).getD (freshItem h name)).sbd_end) := rfl

theorem base_good {year month : Nat} {map : List (String × PItem)} {h : Hit}
    {name : String} (hname : name ≠ "") (hnws : ∃ c ∈ name.data, isWS c = false)
    (hmap : ∀ p ∈ map, goodPI year month p.2) :
    goodBase year month ((map.lookup name).getD (freshItem h name)) := by
  cases hlk : map.lookup name with
  | none => exact ⟨hname, hnws, Or.inl rfl, Or.inl rfl⟩
  | some base => exact (hmap (name, base) (lookup_mem map name base hlk)).1

theorem hitItem_good {year month d : Nat} {linkMap : String → Option String}
    {map : List (String × PItem)} {h : Hit} {name : String}
    (hd1 : 1 ≤ d) (hd2 : d ≤ 31) (hname : name ≠ "")
    (hnws : ∃ c ∈ name.data, isWS c = false)
    (hmap : ∀ p ∈ map, goodPI year month p.2) :
    goodPI year month (hitItem year month d linkMap map h name) := by
  obtain ⟨hcn, hcw, hs, he⟩ := base_good (h := h) hname hnws hmap
  refine ⟨⟨?_, ?_, ?_, ?_⟩, ?_⟩
  · rw [hitItem_corp]
    exact hcn
  · rw [hitItem_corp]
    exact hcw
  · rw [hitItem_sbds]
    by_cases hw : h.which = Mark.start
    · rw [if_pos hw]
      exact Or.inr ⟨d, hd1, hd2, rfl⟩
    · rw [if_neg hw]
      exact hs
  · rw [hitItem_sbde]
    by_cases hw : h.which = Mark.stop
    · rw [if_pos hw]
      exact Or.inr ⟨d, hd1, hd2, rfl⟩
    · rw [if_neg hw]
      exact he
  · cases hw : h.which with
    | start =>
      left
      rw [hitItem_sbds, if_pos hw]
      simp
    | stop =>
      right
      rw [hitItem_sbde, if_pos hw]
      simp

theorem applyHit_good {year month d : Nat} {linkMap : String → Option String}
    {map : List (String × PItem)} {h : Hit}
    (hd1 : 1 ≤ d) (hd2 : d ≤ 31)
    (hmap : ∀ p ∈ map, goodPI year month p.2) :
    ∀ p ∈ applyHit year month d linkMap map h, goodPI year month p.2 := by
  intro p hp
  simp only [applyHit] at hp
  by_cases hn : normalizeName h.rawName = ""
  · rw [if_pos hn] at hp
    exact hmap p hp
  · rw [if_neg hn] at hp
    rcases mapUpd_mem (normalizeName h.rawName) _ map p hp with h2 | h2
    · rw [h2]
      exact hitItem_good hd1 hd2 hn (normalizeName_good hn) hmap
    · exact hmap p h2

theorem applyHits_good {year month d : Nat} {linkMap : String → Option String}
    (hd1 : 1 ≤ d) (hd2 : d ≤ 31) :
    ∀ (hits : List Hit) (map : List (String × PItem)),
      (∀ p ∈ map, goodPI year month p.2) →
      ∀ p ∈ hits.foldl (applyHit year month d linkMap) map, goodPI year month p.2 := by
  intro hits
  induction hits with
  | nil =>
    intro map hmap p hp
    exact hmap p hp
  | cons h rest ih =>
    intro map hmap p hp
    exact ih (applyHit year month d linkMap map h) (applyHit_good hd1 hd2 hmap) p hp

theorem lineScan_good (matcher : String → List Hit) (linkMap : String → Option String)
    (year month : Nat) :
    ∀ (lines : List String) (cur : Option Nat) (map : List (String × PItem)),
      (cur = none ∨ ∃ d, cur = some d ∧ 1 ≤ d ∧ d ≤ 31) →
      (∀ p ∈ map, goodPI year month p.2) →
      ∀ p ∈ lineScan matcher linkMap year month lines cur map, goodPI year month p.2 := by
  intro lines
  induction lines with
  | nil =>
    intro cur map _ hmap p hp
    exact hmap p hp
  | cons line rest ih =>
    intro cur map hcur hmap p hp
    unfold lineScan at hp
    by_cases hl : isTwoDigitLine line = true
    · rw [if_pos hl] at hp
      refine ih (if 1 ≤ Part000.tokVal line ∧ Part000.tokVal line ≤ 31
          then some (Part000.tokVal line) else cur) map ?_ hmap p hp
      by_cases hd : 1 ≤ Part000.tokVal line ∧ Part000.tokVal line ≤ 31
      · rw [if_pos hd]
        exact Or.inr ⟨Part000.tokVal line, rfl, hd.1, hd.2⟩
      · rw [if_neg hd]
        exact hcur
    · rw [if_neg hl] at hp
      rcases hcur with hc | ⟨d, hc, hd1, hd2⟩
      · subst hc
        exact ih none map (Or.inl rfl) hmap p hp
      · subst hc
        exact ih (some d) ((matcher line).foldl (applyHit year month d linkMap) map)
          (Or.inr ⟨d, rfl, hd1, hd2⟩)
          (applyHits_good hd1 hd2 (matcher line) map hmap) p hp

theorem imputeItem_fields {year month : Nat} {it : PItem} (hg : goodPI year month it) :
    (imputeItem it).corp_name = it.corp_name ∧
    (∃ dd, 1 ≤ dd ∧ dd ≤ 31 ∧
      (imputeItem it).sbd_start = some (toISODate year month dd)) ∧
    (∃ dd, 1 ≤ dd ∧ dd ≤ 31 ∧
      (imputeItem it).sbd_end = some (toISODate year month dd)) := by
  obtain ⟨⟨hcn, hcw, hs, he⟩, hpop⟩ := hg
  rcases hs with hs | ⟨ds, hds1, hds2, hs⟩
  · rcases he with he | ⟨de, hde1, hde2, he⟩
    · rcases hpop with h | h
      · exact absurd hs h
      · exact absurd he h
    · exact ⟨by simp [imputeItem, hs, he], ⟨de, hde1, hde2, by simp [imputeItem, hs, he]⟩,
        ⟨de, hde1, hde2, by simp [imputeItem, hs, he]⟩⟩
  · rcases he with he | ⟨de, hde1, hde2, he⟩
    · exact ⟨by simp [imputeItem, hs, he], ⟨ds, hds1, hds2, by simp [imputeItem, hs, he]⟩,
        ⟨ds, hds1, hds2, by simp [imputeItem, hs, he]⟩⟩
    · exact ⟨by simp [imputeItem, hs, he], ⟨ds, hds1, hds2, by simp [imputeItem, hs, he]⟩,
        ⟨de, hde1, hde2, by simp [imputeItem, hs, he]⟩⟩

theorem parse_good (matcher : String → List Hit) (linkMap : String → Option String)
    (year month : Nat) (rawLines : List String) :
    ∀ it ∈ parseDartCalendar matcher linkMap year month rawLines,
      it.corp_name ≠ "" ∧ (∃ c ∈ it.corp_name.data, isWS c = false) ∧
      (∃ dd, 1 ≤ dd ∧ dd ≤ 31 ∧ it.sbd_start = some (toISODate year month dd)) ∧
      (∃ dd, 1 ≤ dd ∧ dd ≤ 31 ∧ it.sbd_end = some (toISODate year month dd)) := by
  intro it hit
  rcases List.mem_map.mp hit with ⟨it0, hit0, rfl⟩
  rcases List.mem_map.mp hit0 with ⟨p, hp, rfl⟩
  have hg : goodPI year month p.2 :=
    lineScan_good matcher linkMap year month _ none [] (Or.inl rfl)
      (by intro q hq; cases hq) p hp
  obtain ⟨⟨hcn, hcw, hsd, hed⟩, hpop⟩ := hg
  obtain ⟨hic, his, hie⟩ := imputeItem_fields ⟨⟨hcn, hcw, hsd, hed⟩, hpop⟩
  refine ⟨?_, ?_, his, hie⟩
  · rw [hic]
    exact hcn
  · rw [hic]
    exact hcw

theorem uniqUpd_vals : ∀ (m : List (String × PItem)) (it : PItem) (p : String × PItem),
    p ∈ uniqUpd m it → p.2 = it ∨ ∃ q ∈ m, p.2 = q.2 := by
  intro m
  induction m with
  | nil =>
    intro it p hp
    rcases List.mem_cons.mp hp with h | h
    · exact Or.inl (by rw [h])
    · cases h
  | cons q rest ih =>
    intro it p hp
    obtain ⟨k, prev⟩ := q
    unfold uniqUpd at hp
    by_cases hk : k = it.corp_name
    · rw [if_pos hk] at hp
      rcases List.mem_cons.mp hp with h | h
      · by_cases hlt : strLt (it.sbd_start.getD "9999") (prev.sbd_start.getD "9999") = true
        · rw [if_pos hlt] at h
          exact Or.inl (by rw [h])
        · rw [if_neg hlt] at h
          exact Or.inr ⟨(k, prev), List.mem_cons_self _ _, by rw [h]⟩
      · exact Or.inr ⟨p, List.mem_cons_of_mem _ h, rfl⟩
    · rw [if_neg hk] at hp
      rcases List.mem_cons.mp hp with h | h
      · exact Or.inr ⟨(k, prev), List.mem_cons_self _ _, by rw [h]⟩
      · rcases ih it p h with h2 | ⟨q2, hq2, hq2e⟩
        · exact Or.inl h2
        · exact Or.inr ⟨q2, List.mem_cons_of_mem _ hq2, hq2e⟩

theorem uniq_mem : ∀ (items : List PItem) (acc : List (String × PItem)) (p : String × PItem),
    p ∈ items.foldl uniqUpd acc → (∃ q ∈ acc, p.2 = q.2) ∨ p.2 ∈ items := by
  intro items
  induction items with
  | nil =>
    intro acc p hp
    exact Or.inl ⟨p, hp, rfl⟩
  | cons it rest ih =>
    intro acc p hp
    rcases ih (uniqUpd acc it) p hp with ⟨q, hq, hqe⟩ | h
    · rcases uniqUpd_vals acc it q hq with h2 | ⟨q2, hq2, hq2e⟩
      · exact Or.inr (by rw [hqe, h2]; exact List.mem_cons_self _ _)
      · exact Or.inl ⟨q2, hq2, by rw [hqe, hq2e]⟩
    · exact Or.inr (List.mem_cons_of_mem _ h)

/-- Deduplication only selects among the input records, never invents
one. -/
theorem uniq_sub (items : List PItem) :
    ∀ it ∈ uniqByCompanyKeepEarliest items, it ∈ items := by
  intro it hit
  rcases List.mem_map.mp hit with ⟨p, hp, rfl⟩
  rcases uniq_mem items [] p hp with ⟨q, hq, _⟩ | h
  · cases hq
  · exact h

end Part002

/-- C9.
Every item emitted by the part_002 feed pipeline is well formed: for each
fetched calendar page carrying a four-digit year and a month in 1..12,
every output record has a nonempty company name containing at least one
non-whitespace character, and both `sbd_start` and `sbd_end` present and of
ISO `YYYY-MM-DD` shape; no record with an empty or whitespace-only name or
a missing date reaches the output. -/
theorem feed_items_well_formed
    (matcher : String → List Part002.Hit) (linkMap : String → Option String)
    (pages : List (Nat × Nat × List String)) (inRange : Part002.PItem → Bool)
    (listed : List String) (metaMap : String → Option Part000.Meta)
    (hpages : ∀ pg ∈ pages, 1000 ≤ pg.1 ∧ pg.1 ≤ 9999 ∧ 1 ≤ pg.2.1 ∧ pg.2.1 ≤ 12) :
    ∀ out ∈ Part002.runItems matcher linkMap pages inRange listed metaMap,
      out.corp_name ≠ "" ∧ (∃ c ∈ out.corp_name.data, isWS c = false) ∧
      (∃ ds, out.sbd_start = some ds ∧ isoShape ds = true) ∧
      (∃ de, out.sbd_end = some de ∧ isoShape de = true) := by
  intro out hout
  have hout2 : out ∈ (Part002.uniqByCompanyKeepEarliest
      ((((pages.map (fun p =>
            Part002.parseDartCalendar matcher linkMap p.1 p.2.1 p.2.2)).join).filter
          inRange).filter (fun it => !(listed.contains it.corp_name)))).map
        (Part002.addMeta metaMap) :=
    (List.perm_insertionSort Part002.outRel _).mem_iff.mp hout
  rcases List.mem_map.mp hout2 with ⟨it, hit, rfl⟩
  have hit2 := Part002.uniq_sub _ it hit
  have hit3 := List.mem_of_mem_filter hit2
  have hit4 := List.mem_of_mem_filter hit3
  rcases List.mem_join.mp hit4 with ⟨l, hl, hitl⟩
  rcases List.mem_map.mp hl with ⟨pg, hpg, rfl⟩
  obtain ⟨hy1, hy2, hm1, hm2⟩ := hpages pg hpg
  obtain ⟨hcn, hcw, ⟨ds, hds1, hds2, hs⟩, ⟨de, hde1, hde2, he⟩⟩ :=
    Part002.parse_good matcher linkMap pg.1 pg.2.1 pg.2.2 it hitl
  exact ⟨hcn, hcw,
    ⟨toISODate pg.1 pg.2.1 ds, hs,
      toISODate_shape hy1 hy2 hm1 (by omega) hds1 (by omega)⟩,
    ⟨toISODate pg.1 pg.2.1 de, he,
      toISODate_shape hy1 hy2 hm1 (by omega) hde1 (by omega)⟩⟩

def c9matcher : String → List Part002.Hit :=
  fun l =>
    if l = "기 케이뱅크 [시작]" then
      [{ ms := "기", rawName := "케이뱅크", which := Mark.start }]
    else []

def c9out : Part002.OutItem :=
  { corp_name := "케이뱅크", market_short := "기", market := "ETC",
    sbd_start := some "2026-03-02", sbd_end := some "2026-03-02", rcp_no := none,
    brokers := "", equalMin := "", note := "" }

theorem feed_items_well_formed_witness :
    c9out.corp_name ≠ "" ∧ (∃ c ∈ c9out.corp_name.data, isWS c = false) ∧
    (∃ ds, c9out.sbd_start = some ds ∧ isoShape ds = true) ∧
    (∃ de, c9out.sbd_end = some de ∧ isoShape de = true) :=
  feed_items_well_formed c9matcher (fun _ => none)
    [(2026, 3, ["02", "기 케이뱅크 [시작]"])] (fun _ => true) [] (fun _ => none)
    (by decide) c9out (by decide)

end Ipo



